import Mathlib

/-!
Mastermind: scoring, candidate enumeration and the search of the codebreaker.

A shallow embedding of `src/mastermind.cpp`.

* `vector<int>` is a `List Int`; `v[i]` is `v.getD i 0` (the source only reads
  indices below the vector's length; every theorem below assumes that length).
* `int` is `Int`.  In the functions embedded here no `int` operation can leave
  the 32-bit range on vectors of length `n`: `b` and `w` stay within `[-n, n]`
  and `v[i]++` runs only under `v[i] < k - 1`; the `int64_t` product of
  `validDataSize` never exceeds `2^24 * 256`.
* `error()` prints `ERROR` and exits the process; a function that can reach it
  returns `none` (or a dedicated constructor) there.
* The `do ... while` loop of `nextGuess` and the game loop of `play` take an
  explicit iteration budget; running out of it is a separate outcome, distinct
  from every outcome of the program.
-/

namespace Mastermind

/-! ## Constants -/

def MIN_K : Int := 2
def MAX_K : Int := 256
def MIN_N : Int := 2
def MAX_N : Int := 10
def MAX_POWER : Int := 16777216

/-! ## Shared functions -/

/-- The loop `for (i = 1; i <= n; i++) { power *= k; if (power > MAX_POWER) return false; }`
of `validDataSize` followed by its `return true`; the first argument is the number of
iterations still to run. -/
def validDataSizeLoop (k : Int) : Nat → Int → Bool
  | 0, _ => true
  | m + 1, power =>
    let power := power * k
    if power > MAX_POWER then false else validDataSizeLoop k m power

/-- The function `validDataSize(k, n)`. -/
def validDataSize (k n : Int) : Bool :=
  if k < MIN_K ∨ MAX_K < k then false
  else if n < MIN_N ∨ MAX_N < n then false
  else validDataSizeLoop k n.toNat 1

/-- The function `responseToGuess(code, guess, k, n)`: the first loop counts the positions
`i < n` with `code[i] == guess[i]`, the second one starts from `-b` and adds, for every
`i < k`, the smaller of the two `std::count`s of `i`. -/
def responseToGuess (code guess : List Int) (k n : Int) : Int × Int :=
  let b : Int := (List.range n.toNat).foldl
    (fun (b : Int) (i : Nat) => if code.getD i 0 = guess.getD i 0 then b + 1 else b) 0
  let w : Int := (List.range k.toNat).foldl
    (fun (w : Int) (i : Nat) =>
      w + min (code.count (i : Int) : Int) (guess.count (i : Int) : Int)) (-b)
  (b, w)

/-! ## Codebreaker -/

/-- The loop of `lexicographicallyIncrement`; the last argument is `i + 1` for the loop
variable `i` (so `0` means the loop has run past position `0` and `error()` is called). -/
def lexicographicallyIncrementLoop (k : Int) : List Int → Nat → Option (List Int)
  | _, 0 => none
  | v, i + 1 =>
    if v.getD i 0 < k - 1 then some (v.set i (v.getD i 0 + 1))
    else lexicographicallyIncrementLoop k (v.set i 0) i

/-- The function `lexicographicallyIncrement(v, k, n)`: `some` of the vector as the call
leaves it, `none` when the call ends in `error()`. -/
def lexicographicallyIncrement (v : List Int) (k n : Int) : Option (List Int) :=
  lexicographicallyIncrementLoop k v n.toNat

/-- The type `guess_t = tuple<vector<int>, int, int>`. -/
abbrev guess_t := List Int × Int × Int

/-- The function `contradictsPreviousAnswers(guess, prevGuesses, k, n)`. -/
def contradictsPreviousAnswers (guess : List Int) : List guess_t → Int → Int → Bool
  | [], _, _ => false
  | (prevGuess, b, w) :: rest, k, n =>
    if responseToGuess guess prevGuess k n ≠ (b, w) then true
    else contradictsPreviousAnswers guess rest k n

/-- What a call of `nextGuess` comes to. -/
inductive Outcome where
  /-- The call returned this vector. -/
  | value (guess : List Int)
  /-- The call reached `error()` inside `lexicographicallyIncrement`. -/
  | exhausted
  /-- The iteration budget of the model ran out. -/
  | outOfFuel
  deriving DecidableEq

/-- The loop `do { lexicographicallyIncrement(guess, k, n); }
while (contradictsPreviousAnswers(guess, prevGuesses, k, n));` of `nextGuess`, followed by
`return guess`; the budget counts executions of the loop body. -/
def nextGuessLoop (prevGuesses : List guess_t) (k n : Int) : Nat → List Int → Outcome
  | 0, _ => Outcome.outOfFuel
  | fuel + 1, guess =>
    match lexicographicallyIncrement guess k n with
    | none => Outcome.exhausted
    | some guess =>
      if contradictsPreviousAnswers guess prevGuesses k n then
        nextGuessLoop prevGuesses k n fuel guess
      else Outcome.value guess

/-- The function `nextGuess(prevGuesses, k, n)`, with a budget for its loop. -/
def nextGuess (prevGuesses : List guess_t) (k n : Int) (fuel : Nat) : Outcome :=
  match prevGuesses.getLast? with
  | none => Outcome.value (List.replicate n.toNat 0)
  | some (guess, _, _) => nextGuessLoop prevGuesses k n fuel guess

/-- The numeric checks of `codebreaker::parseLine(line, n)`.  A line is taken as the two
integers its two words denote: `SMALL_NUMBER_REGEX` accepts exactly the numerals of
`0 .. 999`, then `b + w > n` is refused.  `none` is `error()`; a line that is no pair of
numerals ends in `error()` as well. -/
def parseLine (line : Int × Int) (n : Int) : Option (Int × Int) :=
  let (b, w) := line
  if ¬ (0 ≤ b ∧ b ≤ 999) ∨ ¬ (0 ≤ w ∧ w ≤ 999) then none
  else if b + w > n then none
  else some (b, w)

/-- How a run of `codebreaker::play` ended. -/
inductive Status where
  /-- The arguments were refused (`error()` in `parseArguments`). -/
  | badArguments
  /-- The answer `b == n && w == 0` arrived: `gameFinished`. -/
  | done
  /-- The stream `cin` ended: `break`. -/
  | inputEnded
  /-- A line was refused (`error()` in `parseLine`). -/
  | badInput
  /-- No further candidate (`error()` in `lexicographicallyIncrement`). -/
  | contradiction
  /-- The iteration budget of the model ran out. -/
  | outOfFuel
  deriving DecidableEq

/-- A run of `codebreaker::play` as seen from outside and inside: the guesses printed, in
order, the vector `prev_Guesses` at the end, and how the run ended. -/
structure Session where
  emitted : List (List Int)
  prevGuesses : List guess_t
  status : Status
  deriving DecidableEq

/-- The other party of a codebreaker session: given the guesses printed so far (the
latest last), the line that `getline` delivers next, or `none` when the stream has ended. -/
abbrev Reply := List (List Int) → Option (Int × Int)

/-- The game loop `while (!gameFinished) { ... }` of `codebreaker::play`.  The first budget
is handed to every call of `nextGuess`, the second one counts rounds. -/
def playLoop (reply : Reply) (k n : Int) (fuel : Nat) :
    Nat → List guess_t → List (List Int) → Session
  | 0, prev_Guesses, out => ⟨out, prev_Guesses, Status.outOfFuel⟩
  | rounds + 1, prev_Guesses, out =>
    match nextGuess prev_Guesses k n fuel with
    | Outcome.exhausted => ⟨out, prev_Guesses, Status.contradiction⟩
    | Outcome.outOfFuel => ⟨out, prev_Guesses, Status.outOfFuel⟩
    | Outcome.value guess =>
      match reply (out ++ [guess]) with
      | none => ⟨out ++ [guess], prev_Guesses, Status.inputEnded⟩
      | some line =>
        match parseLine line n with
        | none => ⟨out ++ [guess], prev_Guesses, Status.badInput⟩
        | some (b, w) =>
          if b = n ∧ w = 0 then ⟨out ++ [guess], prev_Guesses, Status.done⟩
          else playLoop reply k n fuel rounds (prev_Guesses ++ [(guess, b, w)]) (out ++ [guess])

/-- The function `codebreaker::play` for the arguments `k`, `n` (the two numbers that
`parseArguments` reads and checks with `validDataSize`). -/
def play (reply : Reply) (k n : Int) (fuel rounds : Nat) : Session :=
  if validDataSize k n then playLoop reply k n fuel rounds [] []
  else ⟨[], [], Status.badArguments⟩

/-- The party that answers every guess with its score against `secret`. -/
def honestReply (secret : List Int) (k n : Int) : Reply := fun out =>
  match out.getLast? with
  | none => none
  | some guess => some (responseToGuess secret guess k n)

/-- The party that sends the given lines one after the other, whatever the guesses, and
then closes the stream. -/
def linesReply (lines : List (Int × Int)) : Reply := fun out =>
  lines[out.length - 1]?

/-! ## Vocabulary of the specification -/

/-- A sequence of exactly `n` symbols, each in `[0, k)`. -/
def IsSeq (k n : Int) (s : List Int) : Prop :=
  (s.length : Int) = n ∧ ∀ x ∈ s, 0 ≤ x ∧ x < k

instance (k n : Int) (s : List Int) : Decidable (IsSeq k n s) := by
  unfold IsSeq; infer_instance

/-- The value of a sequence read as a base-`k` numeral, leftmost position most
significant. -/
def numeral (k : Int) (s : List Int) : Int :=
  s.foldl (fun acc d => acc * k + d) 0

/-- The candidate agrees with every record of the history. -/
def Consistent (candidate : List Int) (history : List guess_t) (k n : Int) : Prop :=
  ∀ r ∈ history, responseToGuess candidate r.1 k n = (r.2.1, r.2.2)

instance (candidate : List Int) (history : List guess_t) (k n : Int) :
    Decidable (Consistent candidate history k n) := by
  unfold Consistent; infer_instance

/-- The sequence `c` is the least one, in base-`k` numeral order, among the sequences of
length `n` over `[0, k)` that are strictly greater than `g` and consistent with the
history. -/
def LeastConsistentAbove (k n : Int) (history : List guess_t) (g c : List Int) : Prop :=
  IsSeq k n c ∧ numeral k g < numeral k c ∧ Consistent c history k n ∧
  ∀ c', IsSeq k n c' → numeral k g < numeral k c' → Consistent c' history k n →
    numeral k c ≤ numeral k c'

/-- The property that `prev_Guesses` keeps during a session: its guesses are sequences of
length `n` over `[0, k)`, and whatever sequence is consistent with it lies strictly above
every guess recorded in it. -/
def GoodHistory (k n : Int) (history : List guess_t) : Prop :=
  (∀ r ∈ history, IsSeq k n r.1) ∧
  ∀ c, IsSeq k n c → Consistent c history k n → ∀ r ∈ history, numeral k r.1 < numeral k c

/-- Applying `lexicographicallyIncrement` a given number of times, stopping at the first
`error()`. -/
def iterateIncrement (k n : Int) : Nat → List Int → Option (List Int)
  | 0, v => some v
  | j + 1, v => (iterateIncrement k n j v).bind (fun u => lexicographicallyIncrement u k n)

/-! ## Instrumented loops -/

/-- The loop of `validDataSize` once more, returning next to its result the values that
`power` takes, in order. -/
def validDataSizeLoopTrace (k : Int) : Nat → Int → Bool × List Int
  | 0, _ => (true, [])
  | m + 1, power =>
    let power := power * k
    if power > MAX_POWER then (false, [power])
    else ((validDataSizeLoopTrace k m power).1, power :: (validDataSizeLoopTrace k m power).2)

/-- The function `validDataSize(k, n)` once more, returning next to its result the values
that `power` takes after its initialisation. -/
def validDataSizeTrace (k n : Int) : Bool × List Int :=
  if k < MIN_K ∨ MAX_K < k then (false, [])
  else if n < MIN_N ∨ MAX_N < n then (false, [])
  else validDataSizeLoopTrace k n.toNat 1

/-- The loop of `nextGuess` once more, returning next to its outcome the number of
iterations in which the increment succeeded and the test
`contradictsPreviousAnswers` was run. -/
def nextGuessLoopCount (prevGuesses : List guess_t) (k n : Int) :
    Nat → List Int → Outcome × Nat
  | 0, _ => (Outcome.outOfFuel, 0)
  | fuel + 1, guess =>
    match lexicographicallyIncrement guess k n with
    | none => (Outcome.exhausted, 0)
    | some guess =>
      if contradictsPreviousAnswers guess prevGuesses k n then
        ((nextGuessLoopCount prevGuesses k n fuel guess).1,
          (nextGuessLoopCount prevGuesses k n fuel guess).2 + 1)
      else (Outcome.value guess, 1)

/-- The function `nextGuess` once more, with the count of `nextGuessLoopCount`. -/
def nextGuessCount (prevGuesses : List guess_t) (k n : Int) (fuel : Nat) : Outcome × Nat :=
  match prevGuesses.getLast? with
  | none => (Outcome.value (List.replicate n.toNat 0), 0)
  | some (guess, _, _) => nextGuessLoopCount prevGuesses k n fuel guess

/-! ## Codemaker -/

namespace codemaker

/-- The checks of `codemaker::parseArguments` on numbers: `k` is the number that `argv[1]`
denotes and `args` are the numbers that `argv[2..]` denote.  `SMALL_NUMBER_REGEX` accepts
exactly the numerals of `0 .. 999`; `n` is the number of the remaining arguments; every
symbol of the code must be below `k`.  `none` is `error()`. -/
def parseArguments (k : Int) (args : List Int) : Option (Int × Int × List Int) :=
  if ¬ (0 ≤ k ∧ k ≤ 999) then none
  else if ¬ validDataSize k (args.length : Int) then none
  else if args.all (fun x => decide (0 ≤ x ∧ x ≤ 999) && decide (x < k)) then
    some (k, (args.length : Int), args)
  else none

/-- The checks of `codemaker::parseLine(line, k, n)` on numbers: a line is taken as the
integers its words denote.  There must be `n` words (`n - 1` single spaces), each a numeral
of `0 .. 999` below `k`.  `none` is `error()`; a line that is no such row of numerals ends
in `error()` as well. -/
def parseLine (line : List Int) (k n : Int) : Option (List Int) :=
  if (line.length : Int) ≠ n then none
  else if line.all (fun x => decide (0 ≤ x ∧ x ≤ 999) && decide (x < k)) then some line
  else none

/-- The game loop `while (!gameFinished && getline(cin, line)) { ... }` of
`codemaker::play` over the lines still to be read; `out` holds the answers printed so
far. -/
def playLoop (code : List Int) (k n : Int) :
    List (List Int) → List (Int × Int) → List (Int × Int) × Status
  | [], out => (out, Status.inputEnded)
  | line :: rest, out =>
    match parseLine line k n with
    | none => (out, Status.badInput)
    | some guess =>
      let bw := responseToGuess code guess k n
      if bw.1 = n ∧ bw.2 = 0 then (out ++ [bw], Status.done)
      else playLoop code k n rest (out ++ [bw])

/-- The function `codemaker::play`: the answers printed and how the run ended. -/
def play (k : Int) (args : List Int) (lines : List (List Int)) :
    List (Int × Int) × Status :=
  match parseArguments k args with
  | none => ([], Status.badArguments)
  | some (k, n, code) => playLoop code k n lines []

end codemaker

/-! ## Scoring -/

theorem foldl_range_add (f : Nat → Int) (m : Nat) (a : Int) :
    (List.range m).foldl (fun w i => w + f i) a = a + ∑ i ∈ Finset.range m, f i := by
  induction m with
  | zero => simp
  | succ m ih =>
    rw [List.range_succ, List.foldl_append, ih, Finset.sum_range_succ]
    simp [add_assoc]

theorem foldl_range_ite (p : Nat → Prop) [DecidablePred p] (m : Nat) :
    (List.range m).foldl (fun (b : Int) i => if p i then b + 1 else b) 0
      = ((Finset.range m).filter p).card := by
  have h : (fun (b : Int) i => if p i then b + 1 else b)
      = (fun b i => b + (if p i then (1 : Int) else 0)) := by
    funext b i; split <;> simp
  rw [h, foldl_range_add, Finset.card_filter]
  simp

theorem sum_range_toNat (f : Int → Int) (k : Int) :
    ∑ i ∈ Finset.range k.toNat, f (i : Int) = ∑ s ∈ Finset.Ico (0 : Int) k, f s := by
  rw [Int.Ico_eq_finset_map, Finset.sum_map]
  simp

/-- The number of positions below `n` at which the two vectors agree. -/
theorem responseToGuess_fst (code guess : List Int) (k n : Int) :
    (responseToGuess code guess k n).1
      = ((Finset.range n.toNat).filter (fun i => code.getD i 0 = guess.getD i 0)).card := by
  unfold responseToGuess
  exact foldl_range_ite _ _

theorem responseToGuess_snd (code guess : List Int) (k n : Int) :
    (responseToGuess code guess k n).2
      = (∑ s ∈ Finset.Ico (0 : Int) k, min (code.count s : Int) (guess.count s : Int))
        - (responseToGuess code guess k n).1 := by
  unfold responseToGuess
  simp only
  rw [foldl_range_add, sum_range_toNat (fun s => min (code.count s : Int) (guess.count s : Int))]
  ring

theorem count_eq_sum_index (l : List Int) (s : Int) :
    (l.count s : Int) = ∑ i ∈ Finset.range l.length, if l.getD i 0 = s then 1 else 0 := by
  induction l with
  | nil => simp
  | cons a l ih =>
    rw [List.length_cons, Finset.sum_range_succ', List.count_cons]
    simp only [List.getD_cons_succ, List.getD_cons_zero]
    rw [← ih]
    by_cases h : a = s <;> simp [h]

theorem fst_eq_sum_index (code guess : List Int) (k n : Int) :
    (responseToGuess code guess k n).1
      = ∑ i ∈ Finset.range n.toNat, if code.getD i 0 = guess.getD i 0 then 1 else 0 := by
  rw [responseToGuess_fst, Finset.card_filter]
  simp

/-- Counting the occurrences of every symbol of a set never counts a position twice. -/
theorem sum_count_le (S : Finset Int) (l : List Int) :
    ∑ s ∈ S, (l.count s : Int) ≤ l.length := by
  induction l with
  | nil => simp
  | cons a l ih =>
    simp only [List.count_cons, Nat.cast_add, Finset.sum_add_distrib, List.length_cons]
    have h : ∑ s ∈ S, ((if (a == s) = true then 1 else 0 : Nat) : Int) ≤ 1 := by
      simp only [beq_iff_eq, Nat.cast_ite, Nat.cast_one, Nat.cast_zero, Finset.sum_ite_eq]
      split <;> simp
    push_cast at h ⊢
    linarith

theorem sum_count_eq (S : Finset Int) (l : List Int) (hl : ∀ x ∈ l, x ∈ S) :
    ∑ s ∈ S, (l.count s : Int) = l.length := by
  induction l with
  | nil => simp
  | cons a l ih =>
    simp only [List.count_cons, Nat.cast_add, Finset.sum_add_distrib, List.length_cons]
    have h : ∑ s ∈ S, ((if (a == s) = true then 1 else 0 : Nat) : Int) = 1 := by
      simp only [beq_iff_eq, Nat.cast_ite, Nat.cast_one, Nat.cast_zero, Finset.sum_ite_eq]
      simp [hl a (List.mem_cons_self a l)]
    rw [ih (fun x hx => hl x (List.mem_cons_of_mem a hx)), h]
    push_cast
    rfl

theorem overlap_le_length (S : Finset Int) (code guess : List Int) :
    ∑ s ∈ S, min (code.count s : Int) (guess.count s : Int) ≤ code.length :=
  le_trans (Finset.sum_le_sum (fun _ _ => min_le_left _ _)) (sum_count_le S code)

theorem getD_mem_of_lt (l : List Int) (i : Nat) (h : i < l.length) : l.getD i 0 ∈ l := by
  rw [List.getD_eq_getElem l 0 h]
  exact List.getElem_mem h

/-- Exact matches are part of the multiset overlap. -/
theorem matches_le_overlap (S : Finset Int) (code guess : List Int)
    (hlen : guess.length = code.length) (hcode : ∀ x ∈ code, x ∈ S) :
    (∑ i ∈ Finset.range code.length, if code.getD i 0 = guess.getD i 0 then (1 : Int) else 0)
      ≤ ∑ s ∈ S, min (code.count s : Int) (guess.count s : Int) := by
  have hsplit : ∀ i ∈ Finset.range code.length,
      (if code.getD i 0 = guess.getD i 0 then (1 : Int) else 0)
        = ∑ s ∈ S, if code.getD i 0 = s ∧ guess.getD i 0 = s then 1 else 0 := by
    intro i hi
    have hmem : code.getD i 0 ∈ S := hcode _ (getD_mem_of_lt code i (Finset.mem_range.mp hi))
    rw [Finset.sum_eq_single (code.getD i 0)]
    · simp [eq_comm]
    · intro s _ hs
      rw [if_neg]
      intro h
      exact hs h.1.symm
    · intro h; exact absurd hmem h
  rw [Finset.sum_congr rfl hsplit, Finset.sum_comm]
  apply Finset.sum_le_sum
  intro s _
  apply le_min
  · rw [count_eq_sum_index]
    apply Finset.sum_le_sum
    intro i _
    split_ifs with h1 h2 <;> first | exact le_refl _ | exact zero_le_one | exact absurd h1.1 h2
  · rw [count_eq_sum_index, hlen]
    apply Finset.sum_le_sum
    intro i _
    split_ifs with h1 h2 <;> first | exact le_refl _ | exact zero_le_one | exact absurd h1.2 h2

theorem isSeq_mem_Ico {k n : Int} {s : List Int} (h : IsSeq k n s) :
    ∀ x ∈ s, x ∈ Finset.Ico (0 : Int) k := by
  intro x hx
  exact Finset.mem_Ico.mpr (h.2 x hx)

theorem isSeq_toNat {k n : Int} {s : List Int} (h : IsSeq k n s) : n.toNat = s.length := by
  rw [← h.1]; simp

/-- The bounds on the two components of a score. -/
theorem responseToGuess_bounds (k n : Int) (code guess : List Int)
    (hc : IsSeq k n code) (hg : (guess.length : Int) = n) :
    0 ≤ (responseToGuess code guess k n).1 ∧ (responseToGuess code guess k n).1 ≤ n ∧
    0 ≤ (responseToGuess code guess k n).2 ∧
    (responseToGuess code guess k n).1 + (responseToGuess code guess k n).2 ≤ n := by
  have hn : n.toNat = code.length := isSeq_toNat hc
  have hlen : guess.length = code.length := by
    have := hc.1; omega
  have h1 : (responseToGuess code guess k n).1 ≤ n := by
    rw [responseToGuess_fst]
    have := Finset.card_filter_le (Finset.range n.toNat)
      (fun i => code.getD i 0 = guess.getD i 0)
    rw [Finset.card_range] at this
    have := hc.1
    omega
  have h0 : 0 ≤ (responseToGuess code guess k n).1 := by
    rw [responseToGuess_fst]; exact Int.natCast_nonneg _
  have h2 := matches_le_overlap (Finset.Ico 0 k) code guess hlen (isSeq_mem_Ico hc)
  have h3 := overlap_le_length (Finset.Ico 0 k) code guess
  rw [← hn, ← fst_eq_sum_index code guess k n] at h2
  rw [responseToGuess_snd]
  have := hc.1
  refine ⟨h0, h1, by linarith, by linarith⟩

theorem responseToGuess_comm (code guess : List Int) (k n : Int) :
    responseToGuess code guess k n = responseToGuess guess code k n := by
  apply Prod.ext
  · rw [responseToGuess_fst, responseToGuess_fst]
    simp only [eq_comm]
  · rw [responseToGuess_snd, responseToGuess_snd, responseToGuess_fst, responseToGuess_fst]
    simp only [eq_comm, min_comm]

theorem responseToGuess_self (k n : Int) (code : List Int) (h : IsSeq k n code) :
    responseToGuess code code k n = (n, 0) := by
  have h1 : (responseToGuess code code k n).1 = n := by
    rw [responseToGuess_fst]
    simp only [Finset.filter_True, Finset.card_range]
    rw [isSeq_toNat h]; exact h.1
  apply Prod.ext
  · exact h1
  · rw [responseToGuess_snd, h1]
    simp only [min_self]
    rw [sum_count_eq _ _ (isSeq_mem_Ico h), h.1]
    simp

/-- A full count of exact matches means the two vectors are the same. -/
theorem eq_of_fst_eq (k n : Int) (code guess : List Int)
    (hc : (code.length : Int) = n) (hg : (guess.length : Int) = n)
    (h : (responseToGuess code guess k n).1 = n) : code = guess := by
  have hn : n.toNat = code.length := by rw [← hc]; simp
  have hlen : guess.length = code.length := by omega
  rw [responseToGuess_fst, hn] at h
  have hcard : ((Finset.range code.length).filter
      (fun i => code.getD i 0 = guess.getD i 0)).card = (Finset.range code.length).card := by
    rw [Finset.card_range]; omega
  have hall := (Finset.card_filter_eq_iff).mp hcard
  apply List.ext_getElem hlen.symm
  intro i h1 h2
  have := hall i (Finset.mem_range.mpr h1)
  rwa [List.getD_eq_getElem code 0 h1, List.getD_eq_getElem guess 0 h2] at this

/-! ## The numeral value of a sequence -/

theorem numeral_concat (k : Int) (s : List Int) (d : Int) :
    numeral k (s ++ [d]) = numeral k s * k + d := by
  simp [numeral, List.foldl_append]

theorem numeral_cons_aux (k : Int) (s : List Int) (a : Int) :
    s.foldl (fun acc d => acc * k + d) a = a * k ^ s.length + numeral k s := by
  induction s generalizing a with
  | nil => simp [numeral]
  | cons x s ih =>
    simp only [List.foldl_cons, List.length_cons, numeral]
    rw [ih (a * k + x), ih (0 * k + x)]
    ring

theorem numeral_append (k : Int) (s t : List Int) :
    numeral k (s ++ t) = numeral k s * k ^ t.length + numeral k t := by
  unfold numeral
  rw [List.foldl_append, numeral_cons_aux]
  rfl

theorem numeral_split (k : Int) (pre post : List Int) (d : Int) :
    numeral k (pre ++ d :: post)
      = numeral k pre * k ^ (post.length + 1) + d * k ^ post.length + numeral k post := by
  have e : pre ++ d :: post = (pre ++ [d]) ++ post := by simp
  rw [e, numeral_append, numeral_concat]
  ring

theorem numeral_replicate_zero (k : Int) (m : Nat) : numeral k (List.replicate m 0) = 0 := by
  induction m with
  | zero => rfl
  | succ m ih => rw [List.replicate_succ', numeral_concat, ih]; simp

theorem numeral_replicate_max (k : Int) (m : Nat) :
    numeral k (List.replicate m (k - 1)) = k ^ m - 1 := by
  induction m with
  | zero => rfl
  | succ m ih => rw [List.replicate_succ', numeral_concat, ih]; ring

theorem numeral_bounds (k : Int) (s : List Int) (hs : ∀ x ∈ s, 0 ≤ x ∧ x < k) :
    0 ≤ numeral k s ∧ numeral k s < k ^ s.length := by
  induction s using List.reverseRecOn with
  | nil => simp [numeral]
  | append_singleton s d ih =>
    have hd := hs d (by simp)
    have ih := ih (fun x hx => hs x (by simp [hx]))
    have hk : 0 < k := by omega
    rw [numeral_concat, List.length_append, List.length_singleton, pow_succ]
    constructor
    · have := mul_nonneg ih.1 hk.le
      omega
    · have h1 : (numeral k s + 1) * k ≤ k ^ s.length * k :=
        mul_le_mul_of_nonneg_right (by omega) hk.le
      have h2 : (numeral k s + 1) * k = numeral k s * k + k := by ring
      omega

theorem numeral_injective (k : Int) (s t : List Int) (hlen : s.length = t.length)
    (hs : ∀ x ∈ s, 0 ≤ x ∧ x < k) (ht : ∀ x ∈ t, 0 ≤ x ∧ x < k)
    (h : numeral k s = numeral k t) : s = t := by
  induction s using List.reverseRecOn generalizing t with
  | nil =>
    cases t with
    | nil => rfl
    | cons _ _ => simp at hlen
  | append_singleton s a ih =>
    rcases List.eq_nil_or_concat t with rfl | ⟨t, b, rfl⟩
    · simp at hlen
    · simp only [List.concat_eq_append] at hlen ht h ⊢
      have ha := hs a (by simp)
      have hb := ht b (by simp)
      rw [numeral_concat, numeral_concat] at h
      have hlen' : s.length = t.length := by simpa using hlen
      have hnum : numeral k s = numeral k t := by
        rcases lt_trichotomy (numeral k s) (numeral k t) with hlt | heq | hgt
        · exfalso
          have h1 : (numeral k s + 1) * k ≤ numeral k t * k :=
            mul_le_mul_of_nonneg_right (by omega) (by omega)
          have h2 : (numeral k s + 1) * k = numeral k s * k + k := by ring
          omega
        · exact heq
        · exfalso
          have h1 : (numeral k t + 1) * k ≤ numeral k s * k :=
            mul_le_mul_of_nonneg_right (by omega) (by omega)
          have h2 : (numeral k t + 1) * k = numeral k t * k + k := by ring
          omega
      have hab : a = b := by rw [hnum] at h; omega
      rw [ih t hlen' (fun x hx => hs x (by simp [hx])) (fun x hx => ht x (by simp [hx])) hnum, hab]

/-! ## The increment -/

theorem getD_at_length (p q : List Int) (x : Int) :
    (p ++ x :: q).getD p.length 0 = x := by
  rw [List.getD_append_right _ _ _ _ (le_refl _)]
  simp

theorem set_at_length (p q : List Int) (x y : Int) :
    (p ++ x :: q).set p.length y = p ++ y :: q := by
  simp

/-- The loop run over a block of positions that all fail the test `v[i] < k - 1`: it
ends in `error()`. -/
theorem loop_all_max (k : Int) (pre suf : List Int) (h : ∀ x ∈ pre, ¬ x < k - 1) :
    lexicographicallyIncrementLoop k (pre ++ suf) pre.length = none := by
  induction pre using List.reverseRecOn generalizing suf with
  | nil => rfl
  | append_singleton p x ih =>
    have hx := h x (by simp)
    rw [List.length_append, List.length_singleton, List.append_assoc, List.singleton_append]
    unfold lexicographicallyIncrementLoop
    rw [getD_at_length, if_neg hx, set_at_length]
    exact ih (0 :: suf) (fun y hy => h y (by simp [hy]))

/-- The loop run from the right end of `pre ++ d :: post`, where `d` passes the test and
no element of `post` does. -/
theorem loop_carry (k : Int) (pre post suf : List Int) (d : Int) (hd : d < k - 1)
    (h : ∀ x ∈ post, ¬ x < k - 1) :
    lexicographicallyIncrementLoop k (pre ++ d :: (post ++ suf)) (pre.length + 1 + post.length)
      = some (pre ++ (d + 1) :: (List.replicate post.length 0 ++ suf)) := by
  induction post using List.reverseRecOn generalizing suf with
  | nil =>
    simp only [List.nil_append, List.length_nil, Nat.add_zero, List.replicate_zero]
    unfold lexicographicallyIncrementLoop
    rw [getD_at_length, if_pos hd, set_at_length]
  | append_singleton p x ih =>
    have hx := h x (by simp)
    have e1 : pre ++ d :: (p ++ [x] ++ suf) = (pre ++ d :: p) ++ x :: suf := by simp
    have e2 : pre.length + 1 + (p ++ [x]).length = (pre ++ d :: p).length + 1 := by
      simp; omega
    rw [e1, e2]
    unfold lexicographicallyIncrementLoop
    rw [getD_at_length, if_neg hx, set_at_length]
    have e3 : (pre ++ d :: p) ++ 0 :: suf = pre ++ d :: (p ++ 0 :: suf) := by simp
    have e4 : (pre ++ d :: p).length = pre.length + 1 + p.length := by simp; omega
    rw [e3, e4, ih (0 :: suf) (fun y hy => h y (by simp [hy]))]
    simp [List.replicate_succ']

/-- Every vector is either made of elements that fail the test, or splits at the
rightmost element that passes it. -/
theorem split_at_rightmost (k : Int) (s : List Int) :
    (∀ x ∈ s, ¬ x < k - 1) ∨
    ∃ pre d post, s = pre ++ d :: post ∧ d < k - 1 ∧ ∀ x ∈ post, ¬ x < k - 1 := by
  induction s with
  | nil => left; simp
  | cons a t ih =>
    rcases ih with hall | ⟨pre, d, post, rfl, hd, hpost⟩
    · by_cases ha : a < k - 1
      · right; exact ⟨[], a, t, rfl, ha, hall⟩
      · left
        intro x hx
        rcases List.mem_cons.mp hx with rfl | hx
        · exact ha
        · exact hall x hx
    · right; exact ⟨a :: pre, d, post, rfl, hd, hpost⟩

theorem increment_split (k n : Int) (pre post : List Int) (d : Int)
    (hn : n.toNat = (pre ++ d :: post).length) (hd : d < k - 1)
    (h : ∀ x ∈ post, ¬ x < k - 1) :
    lexicographicallyIncrement (pre ++ d :: post) k n
      = some (pre ++ (d + 1) :: List.replicate post.length 0) := by
  unfold lexicographicallyIncrement
  have := loop_carry k pre post [] d hd h
  simp only [List.append_nil] at this
  rw [hn, ← this]
  congr 1
  simp; omega

theorem increment_all_max (k n : Int) (s : List Int) (hn : n.toNat = s.length)
    (h : ∀ x ∈ s, ¬ x < k - 1) : lexicographicallyIncrement s k n = none := by
  unfold lexicographicallyIncrement
  have := loop_all_max k s [] h
  simp only [List.append_nil] at this
  rw [hn, this]

theorem numeral_increment (k : Int) (pre post : List Int) (d : Int)
    (h : ∀ x ∈ post, x = k - 1) :
    numeral k (pre ++ (d + 1) :: List.replicate post.length 0)
      = numeral k (pre ++ d :: post) + 1 := by
  have hpost : post = List.replicate post.length (k - 1) := List.eq_replicate_iff.mpr ⟨rfl, h⟩
  rw [numeral_split, numeral_split, numeral_replicate_zero, List.length_replicate]
  conv_rhs => rw [hpost, numeral_replicate_max, List.length_replicate]
  ring

/-! ## The increment on sequences over `[0, k)` -/

theorem not_lt_iff_eq_max {k : Int} {s : List Int} (hs : ∀ x ∈ s, 0 ≤ x ∧ x < k) :
    (∀ x ∈ s, ¬ x < k - 1) ↔ ∀ x ∈ s, x = k - 1 := by
  constructor
  · intro h x hx
    have := h x hx
    have := hs x hx
    omega
  · intro h x hx
    have := h x hx
    omega

theorem increment_none_iff (k n : Int) (s : List Int) (hs : IsSeq k n s) :
    lexicographicallyIncrement s k n = none ↔ ∀ x ∈ s, x = k - 1 := by
  rw [← not_lt_iff_eq_max hs.2]
  constructor
  · intro hnone
    rcases split_at_rightmost k s with hall | ⟨pre, d, post, rfl, hd, hpost⟩
    · exact hall
    · rw [increment_split k n pre post d (isSeq_toNat hs) hd hpost] at hnone
      exact absurd hnone (by simp)
  · exact increment_all_max k n s (isSeq_toNat hs)

theorem increment_some (k n : Int) (s u : List Int) (hs : IsSeq k n s)
    (h : lexicographicallyIncrement s k n = some u) :
    IsSeq k n u ∧ numeral k u = numeral k s + 1 := by
  rcases split_at_rightmost k s with hall | ⟨pre, d, post, rfl, hd, hpost⟩
  · rw [increment_all_max k n s (isSeq_toNat hs) hall] at h
    exact absurd h (by simp)
  · rw [increment_split k n pre post d (isSeq_toNat hs) hd hpost] at h
    have hu : u = pre ++ (d + 1) :: List.replicate post.length 0 := (Option.some.inj h).symm
    have hmax : ∀ x ∈ post, x = k - 1 :=
      (not_lt_iff_eq_max (fun x hx => hs.2 x (by simp [hx]))).mp hpost
    have hd0 := hs.2 d (by simp)
    refine ⟨⟨?_, ?_⟩, ?_⟩
    · rw [hu, ← hs.1]; simp
    · intro x hx
      rw [hu] at hx
      rcases List.mem_append.mp hx with hx | hx
      · exact hs.2 x (by simp [hx])
      · rcases List.mem_cons.mp hx with rfl | hx
        · omega
        · have := (List.mem_replicate.mp hx).2
          omega
    · rw [hu]; exact numeral_increment k pre post d hmax

theorem isSeq_numeral_bounds {k n : Int} {s : List Int} (hs : IsSeq k n s) :
    0 ≤ numeral k s ∧ numeral k s < k ^ n.toNat := by
  rw [isSeq_toNat hs]
  exact numeral_bounds k s hs.2

theorem isSeq_eq_of_numeral {k n : Int} {s t : List Int} (hs : IsSeq k n s) (ht : IsSeq k n t)
    (h : numeral k s = numeral k t) : s = t := by
  refine numeral_injective k s t ?_ hs.2 ht.2 h
  have := hs.1; have := ht.1; omega

theorem increment_none_iff_numeral (k n : Int) (s : List Int) (hs : IsSeq k n s) :
    lexicographicallyIncrement s k n = none ↔ numeral k s + 1 = k ^ n.toNat := by
  constructor
  · intro h
    have hall := (increment_none_iff k n s hs).mp h
    have hrep : s = List.replicate s.length (k - 1) := List.eq_replicate_iff.mpr ⟨rfl, hall⟩
    rw [hrep, numeral_replicate_max, isSeq_toNat hs]
    simp
  · intro h
    cases hinc : lexicographicallyIncrement s k n with
    | none => rfl
    | some u =>
      have hu := increment_some k n s u hs hinc
      have := (isSeq_numeral_bounds hu.1).2
      omega

theorem isSeq_zeros (k n : Int) (hk : 1 ≤ k) (hn : 0 ≤ n) :
    IsSeq k n (List.replicate n.toNat 0) := by
  constructor
  · simp [hn]
  · intro x hx
    have := (List.mem_replicate.mp hx).2
    omega

/-! ## The sweep from the all-zero sequence -/

theorem iterate_lt (k n : Int) (hk : 1 ≤ k) (hn : 0 ≤ n) (j : Nat)
    (hj : (j : Int) < k ^ n.toNat) :
    ∃ s, iterateIncrement k n j (List.replicate n.toNat 0) = some s ∧ IsSeq k n s ∧
      numeral k s = j := by
  induction j with
  | zero =>
    exact ⟨_, rfl, isSeq_zeros k n hk hn, by simp [numeral_replicate_zero]⟩
  | succ j ih =>
    obtain ⟨s, hs, hseq, hnum⟩ := ih (by push_cast at hj; omega)
    cases hinc : lexicographicallyIncrement s k n with
    | none =>
      have := (increment_none_iff_numeral k n s hseq).mp hinc
      push_cast at hj
      omega
    | some u =>
      have hu := increment_some k n s u hseq hinc
      refine ⟨u, ?_, hu.1, ?_⟩
      · simp [iterateIncrement, hs, hinc]
      · rw [hu.2, hnum]; push_cast; rfl

theorem iterate_ge (k n : Int) (hk : 1 ≤ k) (hn : 0 ≤ n) (j : Nat)
    (hj : k ^ n.toNat ≤ (j : Int)) :
    iterateIncrement k n j (List.replicate n.toNat 0) = none := by
  induction j with
  | zero =>
    have : (0 : Int) < k ^ n.toNat := pow_pos (by omega) _
    simp at hj
    omega
  | succ j ih =>
    by_cases hlt : (j : Int) < k ^ n.toNat
    · obtain ⟨s, hs, hseq, hnum⟩ := iterate_lt k n hk hn j hlt
      have hnone : lexicographicallyIncrement s k n = none := by
        rw [increment_none_iff_numeral k n s hseq, hnum]
        push_cast at hj
        omega
      simp [iterateIncrement, hs, hnone]
    · simp [iterateIncrement, ih (by omega)]

/-! ## The search of `nextGuess` -/

theorem contradicts_eq_false_iff (c : List Int) (history : List guess_t) (k n : Int) :
    contradictsPreviousAnswers c history k n = false ↔ Consistent c history k n := by
  induction history with
  | nil => simp [contradictsPreviousAnswers, Consistent]
  | cons r rest ih =>
    obtain ⟨g, b, w⟩ := r
    unfold contradictsPreviousAnswers
    by_cases h : responseToGuess c g k n = (b, w)
    · simp only [ne_eq, h, not_true_eq_false, if_false]
      rw [ih]
      simp [Consistent, h]
    · simp only [ne_eq, h, not_false_eq_true, if_true]
      simp only [Bool.true_eq_false, false_iff]
      intro hc
      exact h (hc (g, b, w) (List.mem_cons_self _ _))

/-- What the loop of `nextGuess` comes to when started at a sequence `g`, whatever the
budget. -/
theorem nextGuessLoop_sound (history : List guess_t) (k n : Int) (fuel : Nat) (g : List Int)
    (hg : IsSeq k n g) :
    match nextGuessLoop history k n fuel g with
    | Outcome.value c => LeastConsistentAbove k n history g c
    | Outcome.exhausted =>
        ∀ c, IsSeq k n c → numeral k g < numeral k c → ¬ Consistent c history k n
    | Outcome.outOfFuel => True := by
  induction fuel generalizing g with
  | zero => simp [nextGuessLoop]
  | succ fuel ih =>
    unfold nextGuessLoop
    cases hinc : lexicographicallyIncrement g k n with
    | none =>
      simp only
      intro c hc hlt
      have := (increment_none_iff_numeral k n g hg).mp hinc
      have := (isSeq_numeral_bounds hc).2
      omega
    | some u =>
      have hu := increment_some k n g u hg hinc
      simp only
      by_cases hcon : contradictsPreviousAnswers u history k n = true
      · rw [if_pos hcon]
        have hrec := ih u hu.1
        have hne : ∀ c, IsSeq k n c → numeral k g < numeral k c → Consistent c history k n →
            numeral k u < numeral k c := by
          intro c hc hlt hcons
          have hcu : numeral k c ≠ numeral k u := by
            intro heq
            have := isSeq_eq_of_numeral hc hu.1 heq
            rw [this, ← contradicts_eq_false_iff, hcon] at hcons
            exact absurd hcons (by simp)
          rw [hu.2]
          omega
        cases hres : nextGuessLoop history k n fuel u with
        | value c =>
          rw [hres] at hrec
          simp only at hrec ⊢
          obtain ⟨h1, h2, h3, h4⟩ := hrec
          exact ⟨h1, by rw [hu.2] at h2; omega, h3,
            fun c' hc' hlt hcons => h4 c' hc' (hne c' hc' hlt hcons) hcons⟩
        | exhausted =>
          rw [hres] at hrec
          simp only at hrec ⊢
          intro c hc hlt hcons
          exact hrec c hc (hne c hc hlt hcons) hcons
        | outOfFuel => trivial
      · rw [if_neg hcon]
        simp only
        have hcons : Consistent u history k n := by
          rw [← contradicts_eq_false_iff]
          simpa using hcon
        exact ⟨hu.1, by rw [hu.2]; omega, hcons,
          fun c' _ hlt _ => by rw [hu.2]; omega⟩

/-- A budget that covers the sequences above `g` is enough for the loop of `nextGuess`. -/
theorem nextGuessLoop_terminates (history : List guess_t) (k n : Int) (fuel : Nat)
    (g : List Int) (hg : IsSeq k n g) (hfuel : k ^ n.toNat ≤ numeral k g + fuel) :
    nextGuessLoop history k n fuel g ≠ Outcome.outOfFuel := by
  induction fuel generalizing g with
  | zero =>
    have := (isSeq_numeral_bounds hg).2
    simp at hfuel
    omega
  | succ fuel ih =>
    unfold nextGuessLoop
    cases hinc : lexicographicallyIncrement g k n with
    | none => simp
    | some u =>
      have hu := increment_some k n g u hg hinc
      simp only
      split
      · exact ih u hu.1 (by rw [hu.2]; push_cast at hfuel; omega)
      · simp

theorem nextGuessLoop_spec (history : List guess_t) (k n : Int) (fuel : Nat) (g : List Int)
    (hg : IsSeq k n g) (hfuel : k ^ n.toNat ≤ numeral k g + fuel) :
    match nextGuessLoop history k n fuel g with
    | Outcome.value c => LeastConsistentAbove k n history g c
    | Outcome.exhausted =>
        ∀ c, IsSeq k n c → numeral k g < numeral k c → ¬ Consistent c history k n
    | Outcome.outOfFuel => False := by
  have h1 := nextGuessLoop_sound history k n fuel g hg
  have h2 := nextGuessLoop_terminates history k n fuel g hg hfuel
  cases hres : nextGuessLoop history k n fuel g with
  | value c => rw [hres] at h1; exact h1
  | exhausted => rw [hres] at h1; exact h1
  | outOfFuel => exact absurd hres h2

theorem leastConsistentAbove_unique {k n : Int} {history : List guess_t} {g c c' : List Int}
    (h : LeastConsistentAbove k n history g c) (h' : LeastConsistentAbove k n history g c') :
    c = c' := by
  obtain ⟨h1, h2, h3, h4⟩ := h
  obtain ⟨h1', h2', h3', h4'⟩ := h'
  have := h4 c' h1' h2' h3'
  have := h4' c h1 h2 h3
  exact isSeq_eq_of_numeral h1 h1' (by omega)

theorem nextGuess_last (history : List guess_t) (k n : Int) (fuel : Nat) (r : guess_t)
    (hlast : history.getLast? = some r) :
    nextGuess history k n fuel = nextGuessLoop history k n fuel r.1 := by
  unfold nextGuess
  rw [hlast]

theorem nextGuess_value_iff (history : List guess_t) (k n : Int) (fuel : Nat) (r : guess_t)
    (hlast : history.getLast? = some r) (hr : IsSeq k n r.1)
    (hfuel : k ^ n.toNat ≤ numeral k r.1 + fuel) (c : List Int) :
    nextGuess history k n fuel = Outcome.value c ↔ LeastConsistentAbove k n history r.1 c := by
  rw [nextGuess_last history k n fuel r hlast]
  have hspec := nextGuessLoop_spec history k n fuel r.1 hr hfuel
  constructor
  · intro h
    rw [h] at hspec
    exact hspec
  · intro h
    cases hres : nextGuessLoop history k n fuel r.1 with
    | value c' =>
      rw [hres] at hspec
      rw [leastConsistentAbove_unique hspec h]
    | exhausted =>
      rw [hres] at hspec
      exact absurd h.2.2.1 (hspec c h.1 h.2.1)
    | outOfFuel =>
      rw [hres] at hspec
      exact absurd hspec id

theorem nextGuess_exhausted_iff (history : List guess_t) (k n : Int) (fuel : Nat) (r : guess_t)
    (hlast : history.getLast? = some r) (hr : IsSeq k n r.1)
    (hfuel : k ^ n.toNat ≤ numeral k r.1 + fuel) :
    nextGuess history k n fuel = Outcome.exhausted ↔
      ¬ ∃ c, IsSeq k n c ∧ numeral k r.1 < numeral k c ∧ Consistent c history k n := by
  rw [nextGuess_last history k n fuel r hlast]
  have hspec := nextGuessLoop_spec history k n fuel r.1 hr hfuel
  constructor
  · intro h
    rw [h] at hspec
    rintro ⟨c, hc, hlt, hcons⟩
    exact hspec c hc hlt hcons
  · intro h
    cases hres : nextGuessLoop history k n fuel r.1 with
    | value c =>
      rw [hres] at hspec
      exact absurd ⟨c, hspec.1, hspec.2.1, hspec.2.2.1⟩ h
    | exhausted => rfl
    | outOfFuel =>
      rw [hres] at hspec
      exact absurd hspec id

/-! ## The game loop -/

theorem getLast?_mem {α : Type} {l : List α} {r : α} (h : l.getLast? = some r) : r ∈ l :=
  List.mem_of_getLast?_eq_some h

theorem nextGuess_nil (k n : Int) (fuel : Nat) :
    nextGuess [] k n fuel = Outcome.value (List.replicate n.toNat 0) := rfl

theorem consistent_nil (c : List Int) (k n : Int) : Consistent c [] k n := by
  intro r hr
  exact absurd hr (List.not_mem_nil r)

theorem goodHistory_nil (k n : Int) : GoodHistory k n [] :=
  ⟨fun r hr => absurd hr (List.not_mem_nil r), fun _ _ _ r hr => absurd hr (List.not_mem_nil r)⟩

/-- What a guess returned by `nextGuess` is, for a history with the session's property. -/
theorem nextGuess_value (k n : Int) (hk : 1 ≤ k) (hn : 0 ≤ n) (history : List guess_t)
    (hH : GoodHistory k n history) (fuel : Nat) (g : List Int)
    (h : nextGuess history k n fuel = Outcome.value g) :
    IsSeq k n g ∧ Consistent g history k n ∧
    (∀ r, history.getLast? = some r → numeral k r.1 < numeral k g) ∧
    (history = [] → numeral k g = 0) ∧
    ∀ c, IsSeq k n c → Consistent c history k n → numeral k g ≤ numeral k c := by
  cases hlast : history.getLast? with
  | none =>
    have hnil : history = [] := List.getLast?_eq_none_iff.mp hlast
    subst hnil
    rw [nextGuess_nil] at h
    have hg : List.replicate n.toNat 0 = g := Outcome.value.inj h
    subst hg
    refine ⟨isSeq_zeros k n hk hn, consistent_nil _ k n, fun r hr => by simp at hr,
      fun _ => numeral_replicate_zero k _, ?_⟩
    intro c hc _
    rw [numeral_replicate_zero]
    exact (isSeq_numeral_bounds hc).1
  | some r =>
    have hr := hH.1 r (getLast?_mem hlast)
    rw [nextGuess_last history k n fuel r hlast] at h
    have hs := nextGuessLoop_sound history k n fuel r.1 hr
    rw [h] at hs
    obtain ⟨h1, h2, h3, h4⟩ := hs
    refine ⟨h1, h3, ?_, ?_, ?_⟩
    · intro r' hr'
      have : r = r' := Option.some.inj hr'
      subst this
      exact h2
    · intro hnil
      rw [hnil] at hlast
      simp at hlast
    · intro c hc hcons
      exact h4 c hc (hH.2 c hc hcons r (getLast?_mem hlast)) hcons

theorem consistent_append (c : List Int) (history : List guess_t) (r : guess_t) (k n : Int) :
    Consistent c (history ++ [r]) k n ↔
      Consistent c history k n ∧ responseToGuess c r.1 k n = (r.2.1, r.2.2) := by
  unfold Consistent
  constructor
  · intro h
    exact ⟨fun q hq => h q (by simp [hq]), h r (by simp)⟩
  · rintro ⟨h1, h2⟩ q hq
    rcases List.mem_append.mp hq with hq | hq
    · exact h1 q hq
    · rw [List.mem_singleton.mp hq]; exact h2

/-- Appending the record of a guess whose answer was not `(n, 0)` keeps the property. -/
theorem goodHistory_append (k n : Int) (hk : 1 ≤ k) (hn : 0 ≤ n) (history : List guess_t)
    (hH : GoodHistory k n history) (fuel : Nat) (g : List Int) (b w : Int)
    (h : nextGuess history k n fuel = Outcome.value g) (hbw : ¬ (b = n ∧ w = 0)) :
    GoodHistory k n (history ++ [(g, b, w)]) := by
  obtain ⟨hg, _, _, _, hleast⟩ := nextGuess_value k n hk hn history hH fuel g h
  constructor
  · intro r hr
    rcases List.mem_append.mp hr with hr | hr
    · exact hH.1 r hr
    · rw [List.mem_singleton.mp hr]; exact hg
  · intro c hc hcons r hr
    rw [consistent_append] at hcons
    rcases List.mem_append.mp hr with hr | hr
    · exact hH.2 c hc hcons.1 r hr
    · rw [List.mem_singleton.mp hr]
      have hle := hleast c hc hcons.1
      have hne : numeral k g ≠ numeral k c := by
        intro heq
        have hgc : g = c := isSeq_eq_of_numeral hg hc heq
        have h2 := hcons.2
        simp only at h2
        rw [← hgc, responseToGuess_self k n g hg] at h2
        have := Prod.ext_iff.mp h2
        exact hbw ⟨this.1.symm, this.2.symm⟩
      simp only
      omega

theorem nextGuess_exhausted (k n : Int) (history : List guess_t)
    (hH : GoodHistory k n history) (fuel : Nat)
    (h : nextGuess history k n fuel = Outcome.exhausted) :
    ¬ ∃ c, IsSeq k n c ∧ Consistent c history k n := by
  cases hlast : history.getLast? with
  | none =>
    have hnil : history = [] := List.getLast?_eq_none_iff.mp hlast
    subst hnil
    rw [nextGuess_nil] at h
    exact absurd h (by simp)
  | some r =>
    have hr := hH.1 r (getLast?_mem hlast)
    rw [nextGuess_last history k n fuel r hlast] at h
    have hs := nextGuessLoop_sound history k n fuel r.1 hr
    rw [h] at hs
    rintro ⟨c, hc, hcons⟩
    exact hs c hc (hH.2 c hc hcons r (getLast?_mem hlast)) hcons

theorem nextGuess_terminates (k n : Int) (history : List guess_t)
    (hH : GoodHistory k n history) (fuel : Nat) (hfuel : k ^ n.toNat ≤ (fuel : Int)) :
    nextGuess history k n fuel ≠ Outcome.outOfFuel := by
  cases hlast : history.getLast? with
  | none =>
    have hnil : history = [] := List.getLast?_eq_none_iff.mp hlast
    subst hnil
    rw [nextGuess_nil]
    simp
  | some r =>
    have hr := hH.1 r (getLast?_mem hlast)
    rw [nextGuess_last history k n fuel r hlast]
    apply nextGuessLoop_terminates history k n fuel r.1 hr
    have := (isSeq_numeral_bounds hr).1
    omega

/-- How a run of the game loop that starts with a history with the session's property
ends: with `error()` in the increment only when nothing is consistent with the final
history, and otherwise (budget apart) with a final history that the last guess printed is
consistent with. -/
theorem playLoop_final (reply : Reply) (k n : Int) (hk : 1 ≤ k) (hn : 0 ≤ n) (fuel : Nat)
    (rounds : Nat) (history : List guess_t) (out : List (List Int))
    (hH : GoodHistory k n history) :
    ((playLoop reply k n fuel rounds history out).status = Status.contradiction →
      ¬ ∃ c, IsSeq k n c ∧
        Consistent c (playLoop reply k n fuel rounds history out).prevGuesses k n) ∧
    ((playLoop reply k n fuel rounds history out).status ≠ Status.contradiction →
      (playLoop reply k n fuel rounds history out).status ≠ Status.outOfFuel →
      ∃ c, IsSeq k n c ∧
        Consistent c (playLoop reply k n fuel rounds history out).prevGuesses k n) := by
  induction rounds generalizing history out with
  | zero => simp [playLoop]
  | succ rounds ih =>
    unfold playLoop
    cases hng : nextGuess history k n fuel with
    | exhausted =>
      simp only
      exact ⟨fun _ => nextGuess_exhausted k n history hH fuel hng, fun h => absurd rfl h⟩
    | outOfFuel =>
      simp only
      exact ⟨fun h => absurd h (by simp), fun _ h => absurd rfl h⟩
    | value g =>
      have hg := nextGuess_value k n hk hn history hH fuel g hng
      simp only
      cases hrep : reply (out ++ [g]) with
      | none =>
        simp only
        exact ⟨fun h => absurd h (by simp), fun _ _ => ⟨g, hg.1, hg.2.1⟩⟩
      | some line =>
        simp only
        cases hparse : parseLine line n with
        | none =>
          simp only
          exact ⟨fun h => absurd h (by simp), fun _ _ => ⟨g, hg.1, hg.2.1⟩⟩
        | some bw =>
          obtain ⟨b, w⟩ := bw
          simp only
          by_cases hbw : b = n ∧ w = 0
          · rw [if_pos hbw]
            exact ⟨fun h => absurd h (by simp), fun _ _ => ⟨g, hg.1, hg.2.1⟩⟩
          · rw [if_neg hbw]
            exact ih (history ++ [(g, b, w)]) (out ++ [g])
              (goodHistory_append k n hk hn history hH fuel g b w hng hbw)

/-- The number of rounds still possible after a history: the sequences above its last
guess, and one more. -/
theorem playLoop_terminates (reply : Reply) (k n : Int) (hk : 1 ≤ k) (hn : 0 ≤ n) (fuel : Nat)
    (hfuel : k ^ n.toNat ≤ (fuel : Int)) (rounds : Nat) (history : List guess_t)
    (out : List (List Int)) (hH : GoodHistory k n history)
    (h0 : history = [] → k ^ n.toNat + 1 ≤ (rounds : Int))
    (h1 : ∀ r, history.getLast? = some r → k ^ n.toNat ≤ numeral k r.1 + rounds) :
    (playLoop reply k n fuel rounds history out).status ≠ Status.outOfFuel := by
  induction rounds generalizing history out with
  | zero =>
    exfalso
    cases hlast : history.getLast? with
    | none =>
      have := h0 (List.getLast?_eq_none_iff.mp hlast)
      have : (0 : Int) < k ^ n.toNat := pow_pos (by omega) _
      simp at *
      omega
    | some r =>
      have := h1 r hlast
      have := (isSeq_numeral_bounds (hH.1 r (getLast?_mem hlast))).2
      simp at *
      omega
  | succ rounds ih =>
    unfold playLoop
    cases hng : nextGuess history k n fuel with
    | exhausted => simp
    | outOfFuel => exact absurd hng (nextGuess_terminates k n history hH fuel hfuel)
    | value g =>
      have hg := nextGuess_value k n hk hn history hH fuel g hng
      simp only
      cases hrep : reply (out ++ [g]) with
      | none => simp
      | some line =>
        simp only
        cases hparse : parseLine line n with
        | none => simp
        | some bw =>
          obtain ⟨b, w⟩ := bw
          simp only
          by_cases hbw : b = n ∧ w = 0
          · rw [if_pos hbw]; simp
          · rw [if_neg hbw]
            apply ih (history ++ [(g, b, w)]) (out ++ [g])
              (goodHistory_append k n hk hn history hH fuel g b w hng hbw)
            · intro hnil; simp at hnil
            · intro r hr
              rw [List.getLast?_concat] at hr
              have hr' : (g, b, w) = r := Option.some.inj hr
              subst hr'
              simp only
              cases hlast : history.getLast? with
              | none =>
                have hnil := List.getLast?_eq_none_iff.mp hlast
                have := h0 hnil
                have := hg.2.2.2.1 hnil
                push_cast at *
                omega
              | some q =>
                have := h1 q hlast
                have := hg.2.2.1 q hlast
                push_cast at *
                omega

theorem validDataSize_bounds (k n : Int) (h : validDataSize k n = true) :
    2 ≤ k ∧ k ≤ 256 ∧ 2 ≤ n ∧ n ≤ 10 := by
  unfold validDataSize MIN_K MAX_K MIN_N MAX_N at h
  by_cases h1 : k < 2 ∨ 256 < k
  · simp [h1] at h
  · by_cases h2 : n < 2 ∨ 10 < n
    · simp [h1, h2] at h
    · omega

/-! ## The session against an honest codemaker -/

theorem parseLine_accepts (b w n : Int) (hb : 0 ≤ b) (hw : 0 ≤ w) (hbw : b + w ≤ n)
    (hn : n ≤ 999) : parseLine (b, w) n = some (b, w) := by
  unfold parseLine
  simp only
  rw [if_neg (by omega), if_neg (by omega)]

theorem honestReply_concat (secret : List Int) (k n : Int) (out : List (List Int))
    (g : List Int) : honestReply secret k n (out ++ [g]) = some (responseToGuess secret g k n) := by
  unfold honestReply
  rw [List.getLast?_concat]

theorem full_score_iff (k n : Int) (secret g : List Int) (hs : IsSeq k n secret)
    (hg : IsSeq k n g) :
    ((responseToGuess secret g k n).1 = n ∧ (responseToGuess secret g k n).2 = 0) ↔
      secret = g := by
  constructor
  · intro h
    exact eq_of_fst_eq k n secret g hs.1 hg.1 h.1
  · intro h
    rw [← h, responseToGuess_self k n secret hs]
    exact ⟨rfl, rfl⟩

theorem playLoop_honest (secret : List Int) (k n : Int) (hk : 1 ≤ k) (hn0 : 0 ≤ n)
    (hn : n ≤ 999) (hsec : IsSeq k n secret) (fuel : Nat)
    (hfuel : k ^ n.toNat ≤ (fuel : Int)) (rounds : Nat) (history : List guess_t)
    (out : List (List Int)) (hH : GoodHistory k n history)
    (hcons : Consistent secret history k n)
    (h0 : history = [] → numeral k secret + 1 ≤ (rounds : Int))
    (h1 : ∀ r, history.getLast? = some r → numeral k secret ≤ numeral k r.1 + rounds) :
    (playLoop (honestReply secret k n) k n fuel rounds history out).status = Status.done ∧
    (playLoop (honestReply secret k n) k n fuel rounds history out).emitted.getLast?
      = some secret ∧
    (history = [] →
      ((playLoop (honestReply secret k n) k n fuel rounds history out).emitted.length : Int)
        ≤ out.length + numeral k secret + 1) ∧
    (∀ r, history.getLast? = some r →
      ((playLoop (honestReply secret k n) k n fuel rounds history out).emitted.length : Int)
        + numeral k r.1 ≤ out.length + numeral k secret) := by
  have hsec0 := (isSeq_numeral_bounds hsec).1
  induction rounds generalizing history out with
  | zero =>
    exfalso
    cases hlast : history.getLast? with
    | none =>
      have := h0 (List.getLast?_eq_none_iff.mp hlast)
      simp at this
      omega
    | some r =>
      have := h1 r hlast
      have := hH.2 secret hsec hcons r (getLast?_mem hlast)
      simp at *
      omega
  | succ rounds ih =>
    unfold playLoop
    cases hng : nextGuess history k n fuel with
    | exhausted =>
      exact absurd ⟨secret, hsec, hcons⟩ (nextGuess_exhausted k n history hH fuel hng)
    | outOfFuel => exact absurd hng (nextGuess_terminates k n history hH fuel hfuel)
    | value g =>
      have hg := nextGuess_value k n hk hn0 history hH fuel g hng
      have hle := hg.2.2.2.2 secret hsec hcons
      have hb := responseToGuess_bounds k n secret g hsec hg.1.1
      simp only
      rw [honestReply_concat]
      simp only
      cases hres : responseToGuess secret g k n with
      | mk b w =>
        rw [hres] at hb
        simp only at hb
        rw [parseLine_accepts b w n hb.1 hb.2.2.1 hb.2.2.2 hn]
        simp only
        have hfull := full_score_iff k n secret g hsec hg.1
        rw [hres] at hfull
        simp only at hfull
        by_cases hbw : b = n ∧ w = 0
        · rw [if_pos hbw]
          have hsg : secret = g := hfull.mp hbw
          subst hsg
          simp only [List.getLast?_concat, List.length_append, List.length_singleton,
            true_and]
          constructor
          · intro _
            push_cast
            omega
          · intro r hr
            have := hg.2.2.1 r hr
            push_cast
            omega
        · rw [if_neg hbw]
          have hne : numeral k g ≠ numeral k secret := by
            intro heq
            exact hbw (hfull.mpr (isSeq_eq_of_numeral hg.1 hsec heq).symm)
          have hcons' : Consistent secret (history ++ [(g, b, w)]) k n := by
            rw [consistent_append]
            exact ⟨hcons, hres⟩
          have hrec := ih (history ++ [(g, b, w)]) (out ++ [g])
            (goodHistory_append k n hk hn0 history hH fuel g b w hng hbw) hcons'
            (fun hnil => by simp at hnil)
            (fun r hr => by
              rw [List.getLast?_concat] at hr
              have hr' : (g, b, w) = r := Option.some.inj hr
              subst hr'
              simp only
              cases hlast : history.getLast? with
              | none =>
                have := h0 (List.getLast?_eq_none_iff.mp hlast)
                have := (isSeq_numeral_bounds hg.1).1
                push_cast at *
                omega
              | some q =>
                have := h1 q hlast
                have := hg.2.2.1 q hlast
                push_cast at *
                omega)
          refine ⟨hrec.1, hrec.2.1, ?_, ?_⟩
          · intro hnil
            have h3 := hrec.2.2.2 (g, b, w) (List.getLast?_concat _)
            have := hg.2.2.2.1 hnil
            simp only [List.length_append, List.length_singleton] at h3
            push_cast at h3
            omega
          · intro r hr
            have h3 := hrec.2.2.2 (g, b, w) (List.getLast?_concat _)
            have := hg.2.2.1 r hr
            simp only [List.length_append, List.length_singleton] at h3
            push_cast at h3
            omega

/-! ## The claims -/

/-- C1: for sequences `code`, `guess` of length `n` over `[0, k)`, `responseToGuess` returns
`(b, w)` where `b` is the number of positions `i < n` with `code[i] = guess[i]` and `w` is
the sum over the symbols `s` of `[0, k)` of the smaller of the two counts of `s`, minus
`b`. -/
theorem responseToGuess_counts (k n : Int) (code guess : List Int)
    (_hc : IsSeq k n code) (_hg : IsSeq k n guess) :
    responseToGuess code guess k n
      = ((((Finset.range n.toNat).filter
            (fun i => code.getD i 0 = guess.getD i 0)).card : Int),
         (∑ s ∈ Finset.Ico (0 : Int) k, min (code.count s : Int) (guess.count s : Int))
          - (((Finset.range n.toNat).filter
            (fun i => code.getD i 0 = guess.getD i 0)).card : Int)) := by
  apply Prod.ext
  · exact responseToGuess_fst code guess k n
  · simp only
    rw [responseToGuess_snd, responseToGuess_fst]

/-- The example of C1: `k = 6`, `n = 4`, code `[0,1,2,3]`, guess `[0,0,0,0]` scores
`(1, 0)`. -/
theorem responseToGuess_counts_witness :
    responseToGuess [0, 1, 2, 3] [0, 0, 0, 0] 6 4 = (1, 0) ∧
    responseToGuess [0, 1, 2, 3] [0, 0, 0, 0] 6 4
      = ((((Finset.range (4 : Int).toNat).filter
            (fun i => [0, 1, 2, 3].getD i (0 : Int) = [0, 0, 0, 0].getD i 0)).card : Int),
         (∑ s ∈ Finset.Ico (0 : Int) 6,
            min (([0, 1, 2, 3] : List Int).count s : Int) (([0, 0, 0, 0] : List Int).count s : Int))
          - (((Finset.range (4 : Int).toNat).filter
            (fun i => [0, 1, 2, 3].getD i (0 : Int) = [0, 0, 0, 0].getD i 0)).card : Int)) :=
  ⟨by decide, responseToGuess_counts 6 4 [0, 1, 2, 3] [0, 0, 0, 0] (by decide) (by decide)⟩

/-- C2: for sequences `C`, `G` of length `n` over `[0, k)` the score `(b, w)` satisfies
`0 ≤ b ≤ n`, `0 ≤ w` and `b + w ≤ n`. -/
theorem responseToGuess_postconditions (k n : Int) (C G : List Int)
    (hC : IsSeq k n C) (hG : IsSeq k n G) :
    0 ≤ (responseToGuess C G k n).1 ∧ (responseToGuess C G k n).1 ≤ n ∧
    0 ≤ (responseToGuess C G k n).2 ∧
    (responseToGuess C G k n).1 + (responseToGuess C G k n).2 ≤ n :=
  responseToGuess_bounds k n C G hC hG.1

theorem responseToGuess_postconditions_witness :
    0 ≤ (responseToGuess [0, 1, 2, 3] [3, 0, 2, 2] 6 4).1 ∧
    (responseToGuess [0, 1, 2, 3] [3, 0, 2, 2] 6 4).1 ≤ 4 ∧
    0 ≤ (responseToGuess [0, 1, 2, 3] [3, 0, 2, 2] 6 4).2 ∧
    (responseToGuess [0, 1, 2, 3] [3, 0, 2, 2] 6 4).1
      + (responseToGuess [0, 1, 2, 3] [3, 0, 2, 2] 6 4).2 ≤ 4 :=
  responseToGuess_postconditions 6 4 [0, 1, 2, 3] [3, 0, 2, 2] (by decide) (by decide)

/-- C3: scoring is symmetric: for sequences `C`, `G` of length `n`,
`responseToGuess C G k n = responseToGuess G C k n`. -/
theorem responseToGuess_symmetric (k n : Int) (C G : List Int)
    (_hC : (C.length : Int) = n) (_hG : (G.length : Int) = n) :
    responseToGuess C G k n = responseToGuess G C k n :=
  responseToGuess_comm C G k n

theorem responseToGuess_symmetric_witness :
    responseToGuess [0, 1, 2, 3] [3, 0, 2, 2] 6 4 = responseToGuess [3, 0, 2, 2] [0, 1, 2, 3] 6 4 :=
  responseToGuess_symmetric 6 4 [0, 1, 2, 3] [3, 0, 2, 2] (by decide) (by decide)

/-- C4: a sequence `C` of length `n` over `[0, k)` scored against itself gives `(n, 0)`. -/
theorem responseToGuess_same (k n : Int) (C : List Int) (hC : IsSeq k n C) :
    responseToGuess C C k n = (n, 0) :=
  responseToGuess_self k n C hC

theorem responseToGuess_same_witness : responseToGuess [3, 0, 2, 2] [3, 0, 2, 2] 6 4 = (4, 0) :=
  responseToGuess_same 6 4 [3, 0, 2, 2] (by decide)

/-- C5: for a non-empty history of records whose guesses are sequences of length `n` over
`[0, k)` and whose last guess is `g`, `nextGuess` returns the least sequence, in base-`k`
numeral order, that is strictly greater than `g` and consistent with every record of the
history, and it ends in `error()` exactly when no such sequence exists (a budget that covers
the sequences above `g` never runs out). -/
theorem nextGuess_least_consistent (k n : Int) (history : List guess_t) (r : guess_t)
    (fuel : Nat) (hvalid : ∀ q ∈ history, IsSeq k n q.1) (hlast : history.getLast? = some r)
    (hfuel : k ^ n.toNat ≤ numeral k r.1 + fuel) :
    (∀ c, nextGuess history k n fuel = Outcome.value c ↔
      LeastConsistentAbove k n history r.1 c) ∧
    (nextGuess history k n fuel = Outcome.exhausted ↔
      ¬ ∃ c, IsSeq k n c ∧ numeral k r.1 < numeral k c ∧ Consistent c history k n) ∧
    nextGuess history k n fuel ≠ Outcome.outOfFuel := by
  have hr : IsSeq k n r.1 := hvalid r (getLast?_mem hlast)
  refine ⟨nextGuess_value_iff history k n fuel r hlast hr hfuel,
    nextGuess_exhausted_iff history k n fuel r hlast hr hfuel, ?_⟩
  rw [nextGuess_last history k n fuel r hlast]
  exact nextGuessLoop_terminates history k n fuel r.1 hr hfuel

/-- The examples of C5: after `[0,0,0,0]` answered `(1, 0)` with `k = 6`, `n = 4` the next
guess is `[0,1,1,1]`; the history `[([0,0],(2,0)), ([0,1],(2,0))]` with `k = 2`, `n = 2`
ends in `error()`. -/
theorem nextGuess_least_consistent_witness :
    nextGuess [([0, 0, 0, 0], 1, 0)] 6 4 1296 = Outcome.value [0, 1, 1, 1] ∧
    nextGuess [([0, 0], 2, 0), ([0, 1], 2, 0)] 2 2 4 = Outcome.exhausted ∧
    LeastConsistentAbove 6 4 [([0, 0, 0, 0], 1, 0)] [0, 0, 0, 0] [0, 1, 1, 1] ∧
    ¬ ∃ c, IsSeq 2 2 c ∧ numeral 2 [0, 1] < numeral 2 c ∧
      Consistent c [([0, 0], 2, 0), ([0, 1], 2, 0)] 2 2 :=
  ⟨by decide, by decide,
    ((nextGuess_least_consistent 6 4 [([0, 0, 0, 0], 1, 0)] ([0, 0, 0, 0], 1, 0) 1296
      (by decide) (by decide) (by decide)).1 [0, 1, 1, 1]).mp (by decide),
    (nextGuess_least_consistent 2 2 [([0, 0], 2, 0), ([0, 1], 2, 0)] ([0, 1], 2, 0) 4
      (by decide) (by decide) (by decide)).2.1.mp (by decide)⟩

/-- C6: for arguments accepted by `validDataSize` and a secret of length `n` over `[0, k)`,
the session whose every guess is answered by its score against the secret ends with
`gameFinished` (not in `error()`), its last guess is the secret, and it prints at most
`k ^ n` guesses; budgets of `k ^ n` are enough. -/
theorem honest_session_converges (k n : Int) (secret : List Int) (fuel rounds : Nat)
    (hvalid : validDataSize k n = true) (hsecret : IsSeq k n secret)
    (hfuel : k ^ n.toNat ≤ (fuel : Int)) (hrounds : k ^ n.toNat ≤ (rounds : Int)) :
    (play (honestReply secret k n) k n fuel rounds).status = Status.done ∧
    (play (honestReply secret k n) k n fuel rounds).emitted.getLast? = some secret ∧
    ((play (honestReply secret k n) k n fuel rounds).emitted.length : Int) ≤ k ^ n.toNat := by
  have hb := validDataSize_bounds k n hvalid
  have hnum := isSeq_numeral_bounds hsecret
  unfold play
  rw [if_pos hvalid]
  have h := playLoop_honest secret k n (by omega) (by omega) (by omega) hsecret fuel hfuel
    rounds [] [] (goodHistory_nil k n) (consistent_nil secret k n) (fun _ => by omega)
    (fun r hr => by simp at hr)
  refine ⟨h.1, h.2.1, ?_⟩
  have := h.2.2.1 rfl
  simp only [List.length_nil] at this
  push_cast at this
  omega

theorem honest_session_converges_witness :
    (play (honestReply [1, 0] 2 2) 2 2 4 4).status = Status.done ∧
    (play (honestReply [1, 0] 2 2) 2 2 4 4).emitted.getLast? = some [1, 0] ∧
    ((play (honestReply [1, 0] 2 2) 2 2 4 4).emitted.length : Int) ≤ 2 ^ (2 : Int).toNat :=
  honest_session_converges 2 2 [1, 0] 4 4 (by decide) (by decide) (by decide) (by decide)

/-- C7: in a run of `codebreaker::play`, whatever the other party sends, once a record has
been appended to `prev_Guesses` the run ends in `error()` of `lexicographicallyIncrement`
exactly when no sequence of length `n` over `[0, k)` is consistent with the final
`prev_Guesses`; budgets of `k ^ n` and `k ^ n + 1` never run out.  The other party may
close the stream after any round, so this covers the history after every append. -/
theorem contradiction_iff_no_code (reply : Reply) (k n : Int) (fuel rounds : Nat)
    (hfuel : k ^ n.toNat ≤ (fuel : Int)) (hrounds : k ^ n.toNat + 1 ≤ (rounds : Int))
    (hne : (play reply k n fuel rounds).prevGuesses ≠ []) :
    (play reply k n fuel rounds).status ≠ Status.outOfFuel ∧
    ((play reply k n fuel rounds).status = Status.contradiction ↔
      ¬ ∃ c, IsSeq k n c ∧ Consistent c (play reply k n fuel rounds).prevGuesses k n) := by
  by_cases hvalid : validDataSize k n = true
  · have hb := validDataSize_bounds k n hvalid
    have hk : 1 ≤ k := by omega
    have hn : 0 ≤ n := by omega
    have hfin := playLoop_final reply k n hk hn fuel rounds [] [] (goodHistory_nil k n)
    have hterm := playLoop_terminates reply k n hk hn fuel hfuel rounds [] []
      (goodHistory_nil k n) (fun _ => hrounds) (fun r hr => by simp at hr)
    unfold play
    rw [if_pos hvalid]
    refine ⟨hterm, hfin.1, ?_⟩
    intro hno
    by_contra hstatus
    exact hno (hfin.2 hstatus hterm)
  · exfalso
    apply hne
    unfold play
    rw [if_neg hvalid]

/-- A contradictory sitting with `k = 2`, `n = 2`: `[0,0]` answered `(1, 0)`, then `[0,1]`
answered `(0, 0)`. -/
theorem contradiction_iff_no_code_witness :
    (play (linesReply [(1, 0), (0, 0)]) 2 2 4 5).status = Status.contradiction ∧
    (play (linesReply [(1, 0), (0, 0)]) 2 2 4 5).prevGuesses
      = [([0, 0], 1, 0), ([0, 1], 0, 0)] ∧
    ¬ ∃ c, IsSeq 2 2 c ∧
      Consistent c (play (linesReply [(1, 0), (0, 0)]) 2 2 4 5).prevGuesses 2 2 :=
  ⟨by decide, by decide,
    (contradiction_iff_no_code (linesReply [(1, 0), (0, 0)]) 2 2 4 5 (by decide) (by decide)
      (by decide)).2.mp (by decide)⟩

/-- C8: for a sequence `seq` of length `n` over `[0, k)` that is not all `k - 1`,
`lexicographicallyIncrement` succeeds; with `d` the rightmost element below `k - 1`
(everything to its right equals `k - 1`), the result keeps what is left of `d`, holds
`d + 1` in its place and `0` in every position to its right; and the base-`k` numeral
value of the result is the value of `seq` plus one. -/
theorem lexicographicallyIncrement_successor (k n : Int) (seq : List Int)
    (hseq : IsSeq k n seq) (hmax : ¬ ∀ x ∈ seq, x = k - 1) :
    ∃ pre d post, seq = pre ++ d :: post ∧ d < k - 1 ∧ (∀ x ∈ post, x = k - 1) ∧
      lexicographicallyIncrement seq k n
        = some (pre ++ (d + 1) :: List.replicate post.length 0) ∧
      numeral k (pre ++ (d + 1) :: List.replicate post.length 0) = numeral k seq + 1 := by
  rcases split_at_rightmost k seq with hall | ⟨pre, d, post, rfl, hd, hpost⟩
  · exact absurd ((not_lt_iff_eq_max hseq.2).mp hall) hmax
  · have hpost' : ∀ x ∈ post, x = k - 1 :=
      (not_lt_iff_eq_max (fun x hx => hseq.2 x (by simp [hx]))).mp hpost
    exact ⟨pre, d, post, rfl, hd, hpost',
      increment_split k n pre post d (isSeq_toNat hseq) hd hpost,
      numeral_increment k pre post d hpost'⟩

theorem lexicographicallyIncrement_successor_witness :
    ∃ pre d post, [2, 0, 5, 5] = pre ++ d :: post ∧ d < 6 - 1 ∧ (∀ x ∈ post, x = 6 - 1) ∧
      lexicographicallyIncrement [2, 0, 5, 5] 6 4
        = some (pre ++ (d + 1) :: List.replicate post.length 0) ∧
      numeral 6 (pre ++ (d + 1) :: List.replicate post.length 0)
        = numeral 6 [2, 0, 5, 5] + 1 :=
  lexicographicallyIncrement_successor 6 4 [2, 0, 5, 5] (by decide) (by decide)

/-- C9: for a sequence `seq` of length `n` over `[0, k)`, `lexicographicallyIncrement`
ends in `error()` if and only if every element of `seq` equals `k - 1`. -/
theorem lexicographicallyIncrement_error_iff (k n : Int) (seq : List Int)
    (hseq : IsSeq k n seq) :
    lexicographicallyIncrement seq k n = none ↔ ∀ x ∈ seq, x = k - 1 :=
  increment_none_iff k n seq hseq

theorem lexicographicallyIncrement_error_iff_witness :
    lexicographicallyIncrement [5, 5, 5, 5] 6 4 = none ↔ ∀ x ∈ [5, 5, 5, 5], x = (6 : Int) - 1 :=
  lexicographicallyIncrement_error_iff 6 4 [5, 5, 5, 5] (by decide)

/-- C10: iterating `lexicographicallyIncrement` from the all-zero sequence of length `n`:
the `j`-th iterate exists for every `j < k ^ n` and is the sequence over `[0, k)` of
numeral value `j`; from `j = k ^ n` on the iteration has ended in `error()` (so it succeeds
exactly `k ^ n - 1` times); every sequence of length `n` over `[0, k)` is visited; and a
later visit has a strictly larger numeral value, hence no sequence is visited twice. -/
theorem sweep_visits_all (k n : Int) (hk : 2 ≤ k) (hn : 1 ≤ n) :
    (∀ j : Nat, (j : Int) < k ^ n.toNat →
      ∃ s, iterateIncrement k n j (List.replicate n.toNat 0) = some s ∧ IsSeq k n s ∧
        numeral k s = j) ∧
    (∀ j : Nat, k ^ n.toNat ≤ (j : Int) →
      iterateIncrement k n j (List.replicate n.toNat 0) = none) ∧
    (∀ s, IsSeq k n s →
      ∃ j : Nat, (j : Int) < k ^ n.toNat ∧
        iterateIncrement k n j (List.replicate n.toNat 0) = some s) ∧
    (∀ (i j : Nat) (s t : List Int), i < j →
      iterateIncrement k n i (List.replicate n.toNat 0) = some s →
      iterateIncrement k n j (List.replicate n.toNat 0) = some t →
      numeral k s < numeral k t ∧ s ≠ t) := by
  have hk1 : 1 ≤ k := by omega
  have hn0 : 0 ≤ n := by omega
  refine ⟨iterate_lt k n hk1 hn0, iterate_ge k n hk1 hn0, ?_, ?_⟩
  · intro s hs
    have hb := isSeq_numeral_bounds hs
    obtain ⟨u, hu, huseq, hunum⟩ := iterate_lt k n hk1 hn0 (numeral k s).toNat
      (by rw [Int.toNat_of_nonneg hb.1]; exact hb.2)
    refine ⟨(numeral k s).toNat, by rw [Int.toNat_of_nonneg hb.1]; exact hb.2, ?_⟩
    rw [hu, isSeq_eq_of_numeral huseq hs (by rw [hunum, Int.toNat_of_nonneg hb.1])]
  · intro i j s t hij hi hj
    have hjlt : (j : Int) < k ^ n.toNat := by
      by_contra hge
      rw [iterate_ge k n hk1 hn0 j (by omega)] at hj
      exact absurd hj (by simp)
    obtain ⟨s', hs', _, hsnum⟩ := iterate_lt k n hk1 hn0 i (by omega)
    obtain ⟨t', ht', _, htnum⟩ := iterate_lt k n hk1 hn0 j hjlt
    rw [hi] at hs'
    rw [hj] at ht'
    have hss : s = s' := Option.some.inj hs'
    have htt : t = t' := Option.some.inj ht'
    subst hss htt
    have hlt : numeral k s < numeral k t := by rw [hsnum, htnum]; exact_mod_cast hij
    exact ⟨hlt, fun h => by rw [h] at hlt; exact lt_irrefl _ hlt⟩

theorem sweep_visits_all_witness :
    (∀ j : Nat, (j : Int) < 2 ^ (2 : Int).toNat →
      ∃ s, iterateIncrement 2 2 j (List.replicate (2 : Int).toNat 0) = some s ∧ IsSeq 2 2 s ∧
        numeral 2 s = j) ∧
    (∀ j : Nat, 2 ^ (2 : Int).toNat ≤ (j : Int) →
      iterateIncrement 2 2 j (List.replicate (2 : Int).toNat 0) = none) ∧
    (∀ s, IsSeq 2 2 s →
      ∃ j : Nat, (j : Int) < 2 ^ (2 : Int).toNat ∧
        iterateIncrement 2 2 j (List.replicate (2 : Int).toNat 0) = some s) ∧
    (∀ (i j : Nat) (s t : List Int), i < j →
      iterateIncrement 2 2 i (List.replicate (2 : Int).toNat 0) = some s →
      iterateIncrement 2 2 j (List.replicate (2 : Int).toNat 0) = some t →
      numeral 2 s < numeral 2 t ∧ s ≠ t) :=
  sweep_visits_all 2 2 (by decide) (by decide)

/-! ## The size check -/

theorem validDataSizeLoop_iff (k : Int) (hk : 1 ≤ k) (m : Nat) (p : Int) (hp : 0 < p)
    (hmax : p ≤ MAX_POWER) :
    validDataSizeLoop k m p = true ↔ p * k ^ m ≤ MAX_POWER := by
  induction m generalizing p with
  | zero =>
    unfold validDataSizeLoop
    simpa using hmax
  | succ m ih =>
    unfold validDataSizeLoop
    simp only
    have hpow : 1 ≤ k ^ m := one_le_pow₀ hk
    have hpk : 0 < p * k := mul_pos hp (by omega)
    have hmono : p * k ≤ p * k * k ^ m := le_mul_of_one_le_right hpk.le hpow
    have hassoc : p * k ^ (m + 1) = p * k * k ^ m := by ring
    by_cases hgt : p * k > MAX_POWER
    · rw [if_pos hgt, hassoc]
      constructor
      · intro h; exact absurd h (by simp)
      · intro h; omega
    · rw [if_neg hgt, hassoc]
      exact ih (p * k) hpk (by omega)

theorem validDataSize_iff (k n : Int) :
    validDataSize k n = true ↔
      2 ≤ k ∧ k ≤ 256 ∧ 2 ≤ n ∧ n ≤ 10 ∧ k ^ n.toNat ≤ 2 ^ 24 := by
  unfold validDataSize MIN_K MAX_K MIN_N MAX_N
  by_cases h1 : k < 2 ∨ 256 < k
  · rw [if_pos h1]
    constructor
    · intro h; exact absurd h (by simp)
    · intro h; omega
  · rw [if_neg h1]
    by_cases h2 : n < 2 ∨ 10 < n
    · rw [if_pos h2]
      constructor
      · intro h; exact absurd h (by simp)
      · intro h; omega
    · rw [if_neg h2, validDataSizeLoop_iff k (by omega) n.toNat 1 one_pos (by decide)]
      have hM : MAX_POWER = 2 ^ 24 := by decide
      rw [one_mul, hM]
      constructor
      · intro h; exact ⟨by omega, by omega, by omega, by omega, h⟩
      · intro h; exact h.2.2.2.2

theorem validDataSizeLoopTrace_fst (k : Int) (m : Nat) (p : Int) :
    (validDataSizeLoopTrace k m p).1 = validDataSizeLoop k m p := by
  induction m generalizing p with
  | zero => rfl
  | succ m ih =>
    unfold validDataSizeLoopTrace validDataSizeLoop
    simp only
    split
    · rfl
    · exact ih (p * k)

theorem validDataSizeTrace_fst (k n : Int) :
    (validDataSizeTrace k n).1 = validDataSize k n := by
  unfold validDataSizeTrace validDataSize
  split
  · rfl
  · split
    · rfl
    · exact validDataSizeLoopTrace_fst k n.toNat 1

/-- Every value that `power` takes is a product of a value of at most `MAX_POWER` with
`k`. -/
theorem validDataSizeLoopTrace_bound (k : Int) (hk : 1 ≤ k) (hk2 : k ≤ 256) (m : Nat) (p : Int)
    (hp : 0 < p) (hmax : p ≤ MAX_POWER) :
    ∀ v ∈ (validDataSizeLoopTrace k m p).2, 0 < v ∧ v ≤ MAX_POWER * 256 := by
  induction m generalizing p with
  | zero =>
    intro v hv
    simp [validDataSizeLoopTrace] at hv
  | succ m ih =>
    have hpk : 0 < p * k := mul_pos hp (by omega)
    have hle : p * k ≤ MAX_POWER * 256 :=
      mul_le_mul hmax hk2 (by omega) (by decide)
    unfold validDataSizeLoopTrace
    simp only
    intro v hv
    by_cases hgt : p * k > MAX_POWER
    · rw [if_pos hgt] at hv
      simp only [List.mem_singleton] at hv
      rw [hv]; exact ⟨hpk, hle⟩
    · rw [if_neg hgt] at hv
      simp only [List.mem_cons] at hv
      rcases hv with hv | hv
      · rw [hv]; exact ⟨hpk, hle⟩
      · exact ih (p * k) hpk (by omega) v hv

theorem validDataSizeTrace_bound (k n : Int) :
    ∀ v ∈ (validDataSizeTrace k n).2, 0 < v ∧ v ≤ 2 ^ 32 := by
  unfold validDataSizeTrace MIN_K MAX_K MIN_N MAX_N
  intro v hv
  by_cases h1 : k < 2 ∨ 256 < k
  · rw [if_pos h1] at hv; simp at hv
  · rw [if_neg h1] at hv
    by_cases h2 : n < 2 ∨ 10 < n
    · rw [if_pos h2] at hv; simp at hv
    · rw [if_neg h2] at hv
      have := validDataSizeLoopTrace_bound k (by omega) (by omega) n.toNat 1 one_pos
        (by decide) v hv
      have hM : MAX_POWER * 256 = 2 ^ 32 := by decide
      rw [hM] at this
      exact this

/-! ## The count of iterations of `nextGuess` -/

theorem nextGuessLoopCount_fst (history : List guess_t) (k n : Int) (fuel : Nat)
    (g : List Int) :
    (nextGuessLoopCount history k n fuel g).1 = nextGuessLoop history k n fuel g := by
  induction fuel generalizing g with
  | zero => rfl
  | succ fuel ih =>
    unfold nextGuessLoopCount nextGuessLoop
    cases lexicographicallyIncrement g k n with
    | none => rfl
    | some u =>
      simp only
      split
      · exact ih u
      · rfl

theorem nextGuessCount_fst (history : List guess_t) (k n : Int) (fuel : Nat) :
    (nextGuessCount history k n fuel).1 = nextGuess history k n fuel := by
  unfold nextGuessCount nextGuess
  cases history.getLast? with
  | none => rfl
  | some r => exact nextGuessLoopCount_fst history k n fuel r.1

/-- Every counted iteration moves the guess one numeral step up, and the guess stays a
sequence over `[0, k)`. -/
theorem nextGuessLoopCount_bound (history : List guess_t) (k n : Int) (fuel : Nat)
    (g : List Int) (hg : IsSeq k n g) :
    ((nextGuessLoopCount history k n fuel g).2 : Int) + numeral k g < k ^ n.toNat := by
  induction fuel generalizing g with
  | zero =>
    have := (isSeq_numeral_bounds hg).2
    simp only [nextGuessLoopCount, Nat.cast_zero]
    omega
  | succ fuel ih =>
    unfold nextGuessLoopCount
    cases hinc : lexicographicallyIncrement g k n with
    | none =>
      have := (isSeq_numeral_bounds hg).2
      simp only [Nat.cast_zero]
      omega
    | some u =>
      have hu := increment_some k n g u hg hinc
      simp only
      split
      · have := ih u hu.1
        simp only [Nat.cast_add, Nat.cast_one]
        omega
      · have := (isSeq_numeral_bounds hu.1).2
        simp only [Nat.cast_one]
        omega

theorem nextGuessCount_bound (history : List guess_t) (k n : Int) (fuel : Nat) (hk : 1 ≤ k)
    (hvalid : ∀ r ∈ history, IsSeq k n r.1) :
    ((nextGuessCount history k n fuel).2 : Int) < k ^ n.toNat := by
  unfold nextGuessCount
  cases hlast : history.getLast? with
  | none =>
    have : (0 : Int) < k ^ n.toNat := pow_pos (by omega) _
    simpa using this
  | some r =>
    have hr := hvalid r (getLast?_mem hlast)
    have := nextGuessLoopCount_bound history k n fuel r.1 hr
    have := (isSeq_numeral_bounds hr).1
    simp only
    omega

theorem nextGuess_terminates_of_valid (history : List guess_t) (k n : Int) (fuel : Nat)
    (hvalid : ∀ r ∈ history, IsSeq k n r.1) (hfuel : k ^ n.toNat ≤ (fuel : Int)) :
    nextGuess history k n fuel ≠ Outcome.outOfFuel := by
  cases hlast : history.getLast? with
  | none =>
    have hnil : history = [] := List.getLast?_eq_none_iff.mp hlast
    subst hnil
    rw [nextGuess_nil]
    simp
  | some r =>
    have hr := hvalid r (getLast?_mem hlast)
    rw [nextGuess_last history k n fuel r hlast]
    apply nextGuessLoop_terminates history k n fuel r.1 hr
    have := (isSeq_numeral_bounds hr).1
    omega

/-! ## The trace of the game loop -/

theorem playLoop_emitted_prefix (reply : Reply) (k n : Int) (fuel rounds : Nat)
    (history : List guess_t) (out : List (List Int)) :
    out <+: (playLoop reply k n fuel rounds history out).emitted := by
  induction rounds generalizing history out with
  | zero => exact List.prefix_rfl
  | succ rounds ih =>
    unfold playLoop
    cases nextGuess history k n fuel with
    | exhausted => exact List.prefix_rfl
    | outOfFuel => exact List.prefix_rfl
    | value g =>
      simp only
      cases reply (out ++ [g]) with
      | none => exact List.prefix_append out [g]
      | some line =>
        simp only
        cases parseLine line n with
        | none => exact List.prefix_append out [g]
        | some bw =>
          obtain ⟨b, w⟩ := bw
          simp only
          split
          · exact List.prefix_append out [g]
          · exact (List.prefix_append out [g]).trans (ih _ _)

theorem playLoop_prevGuesses_prefix (reply : Reply) (k n : Int) (fuel rounds : Nat)
    (history : List guess_t) (out : List (List Int)) :
    history <+: (playLoop reply k n fuel rounds history out).prevGuesses := by
  induction rounds generalizing history out with
  | zero => exact List.prefix_rfl
  | succ rounds ih =>
    unfold playLoop
    cases nextGuess history k n fuel with
    | exhausted => exact List.prefix_rfl
    | outOfFuel => exact List.prefix_rfl
    | value g =>
      simp only
      cases reply (out ++ [g]) with
      | none => exact List.prefix_rfl
      | some line =>
        simp only
        cases parseLine line n with
        | none => exact List.prefix_rfl
        | some bw =>
          obtain ⟨b, w⟩ := bw
          simp only
          split
          · exact List.prefix_rfl
          · exact (List.prefix_append history [(g, b, w)]).trans (ih _ _)

/-- The property of the printed guesses and the history that the game loop keeps. -/
theorem trace_extend (k n : Int) (history tl : List guess_t) (out : List (List Int))
    (g : List Int) (hmap : history.map Prod.fst = out)
    (hcons : ∀ i x, out[i]? = some x → Consistent x (history.take i) k n)
    (hg : Consistent g history k n) :
    ∀ i x, (out ++ [g])[i]? = some x → Consistent x ((history ++ tl).take i) k n := by
  have hlen : out.length = history.length := by rw [← hmap]; simp
  intro i x hx
  rw [List.getElem?_append] at hx
  by_cases hi : i < out.length
  · rw [if_pos hi] at hx
    rw [List.take_append_of_le_length (by omega)]
    exact hcons i x hx
  · rw [if_neg hi] at hx
    have hi0 : i - out.length = 0 := by
      by_contra hne
      rw [List.getElem?_eq_none (by simp; omega)] at hx
      exact absurd hx (by simp)
    have hi' : history.length = i := by omega
    rw [hi0] at hx
    have hxg : g = x := by simpa using hx
    rw [List.take_left' hi', ← hxg]
    exact hg

theorem playLoop_trace (reply : Reply) (k n : Int) (hk : 1 ≤ k) (hn : 0 ≤ n) (fuel rounds : Nat)
    (history : List guess_t) (out : List (List Int)) (hH : GoodHistory k n history)
    (hmap : history.map Prod.fst = out)
    (hcons : ∀ i x, out[i]? = some x → Consistent x (history.take i) k n)
    (hpw : out.Pairwise (fun a b => numeral k a < numeral k b)) :
    ((playLoop reply k n fuel rounds history out).prevGuesses.map Prod.fst
      <+: (playLoop reply k n fuel rounds history out).emitted) ∧
    (playLoop reply k n fuel rounds history out).emitted.Pairwise
      (fun a b => numeral k a < numeral k b) ∧
    (∀ g ∈ (playLoop reply k n fuel rounds history out).emitted, IsSeq k n g) ∧
    (∀ i x, (playLoop reply k n fuel rounds history out).emitted[i]? = some x →
      Consistent x ((playLoop reply k n fuel rounds history out).prevGuesses.take i) k n) := by
  have hseq : ∀ g ∈ out, IsSeq k n g := by
    intro g hg
    rw [← hmap] at hg
    obtain ⟨r, hr, rfl⟩ := List.mem_map.mp hg
    exact hH.1 r hr
  have hstop : (history.map Prod.fst <+: out) ∧
      out.Pairwise (fun a b => numeral k a < numeral k b) ∧
      (∀ g ∈ out, IsSeq k n g) ∧
      (∀ i x, out[i]? = some x → Consistent x (history.take i) k n) :=
    ⟨by rw [hmap], hpw, hseq, hcons⟩
  induction rounds generalizing history out with
  | zero => exact hstop
  | succ rounds ih =>
    unfold playLoop
    cases hng : nextGuess history k n fuel with
    | exhausted => exact hstop
    | outOfFuel => exact hstop
    | value g =>
      have hg := nextGuess_value k n hk hn history hH fuel g hng
      have hpw' : (out ++ [g]).Pairwise (fun a b => numeral k a < numeral k b) := by
        rw [List.pairwise_append]
        refine ⟨hpw, List.pairwise_singleton _ _, ?_⟩
        intro a ha b hb
        rw [List.mem_singleton.mp hb]
        rw [← hmap] at ha
        obtain ⟨r, hr, rfl⟩ := List.mem_map.mp ha
        exact hH.2 g hg.1 hg.2.1 r hr
      have hseq' : ∀ x ∈ out ++ [g], IsSeq k n x := by
        intro x hx
        rcases List.mem_append.mp hx with hx | hx
        · exact hseq x hx
        · rw [List.mem_singleton.mp hx]; exact hg.1
      have hend : (history.map Prod.fst <+: out ++ [g]) ∧
          (out ++ [g]).Pairwise (fun a b => numeral k a < numeral k b) ∧
          (∀ x ∈ out ++ [g], IsSeq k n x) ∧
          (∀ i x, (out ++ [g])[i]? = some x → Consistent x (history.take i) k n) := by
        refine ⟨by rw [hmap]; exact List.prefix_append out [g], hpw', hseq', ?_⟩
        have := trace_extend k n history [] out g hmap hcons hg.2.1
        simpa using this
      simp only
      cases reply (out ++ [g]) with
      | none => exact hend
      | some line =>
        simp only
        cases parseLine line n with
        | none => exact hend
        | some bw =>
          obtain ⟨b, w⟩ := bw
          simp only
          by_cases hbw : b = n ∧ w = 0
          · rw [if_pos hbw]; exact hend
          · rw [if_neg hbw]
            have hmap' : (history ++ [(g, b, w)]).map Prod.fst = out ++ [g] := by
              rw [List.map_append, hmap]; rfl
            have hcons' := trace_extend k n history [(g, b, w)] out g hmap hcons hg.2.1
            exact ih (history ++ [(g, b, w)]) (out ++ [g])
              (goodHistory_append k n hk hn history hH fuel g b w hng hbw) hmap' hcons' hpw'
              hseq' ⟨by rw [hmap'], hpw', hseq', hcons'⟩

/-! ## The codemaker's loop -/

theorem parseLine_some (line : Int × Int) (n b w : Int) (h : parseLine line n = some (b, w)) :
    line = (b, w) ∧ 0 ≤ b ∧ 0 ≤ w ∧ b + w ≤ n := by
  obtain ⟨b0, w0⟩ := line
  unfold parseLine at h
  simp only at h
  by_cases h1 : ¬ (0 ≤ b0 ∧ b0 ≤ 999) ∨ ¬ (0 ≤ w0 ∧ w0 ≤ 999)
  · rw [if_pos h1] at h; exact absurd h (by simp)
  · rw [if_neg h1] at h
    by_cases h2 : b0 + w0 > n
    · rw [if_pos h2] at h; exact absurd h (by simp)
    · rw [if_neg h2] at h
      have hbw : (b0, w0) = (b, w) := Option.some.inj h
      have hb : b0 = b := (Prod.ext_iff.mp hbw).1
      have hw : w0 = w := (Prod.ext_iff.mp hbw).2
      subst hb hw
      refine ⟨rfl, ?_, ?_, ?_⟩ <;> omega

theorem codemaker_parseLine_some (line guess : List Int) (k n : Int)
    (h : codemaker.parseLine line k n = some guess) :
    guess = line ∧ (line.length : Int) = n := by
  unfold codemaker.parseLine at h
  by_cases h1 : (line.length : Int) ≠ n
  · rw [if_pos h1] at h; exact absurd h (by simp)
  · rw [if_neg h1] at h
    split at h
    · exact ⟨(Option.some.inj h).symm, not_not.mp h1⟩
    · exact absurd h (by simp)

theorem codemaker_parseLine_accepts (guess : List Int) (k n : Int) (hk : k ≤ 1000)
    (hg : IsSeq k n guess) : codemaker.parseLine guess k n = some guess := by
  unfold codemaker.parseLine
  rw [if_neg (not_not.mpr hg.1), if_pos]
  rw [List.all_eq_true]
  intro x hx
  have := hg.2 x hx
  simp only [Bool.and_eq_true, decide_eq_true_eq]
  omega

/-- A run of the codemaker's loop that ends finished has read the code as its last line
answered. -/
theorem codemaker_playLoop_done (code : List Int) (k n : Int) (hc : (code.length : Int) = n)
    (lines : List (List Int)) (out : List (Int × Int))
    (h : (codemaker.playLoop code k n lines out).2 = Status.done) :
    ∃ pre post, lines = pre ++ code :: post ∧
      (codemaker.playLoop code k n lines out).1.length = out.length + pre.length + 1 := by
  induction lines generalizing out with
  | nil => simp [codemaker.playLoop] at h
  | cons line rest ih =>
    unfold codemaker.playLoop at h ⊢
    cases hparse : codemaker.parseLine line k n with
    | none => rw [hparse] at h; simp at h
    | some guess =>
      rw [hparse] at h
      simp only at h ⊢
      obtain ⟨hgl, hlen⟩ := codemaker_parseLine_some line guess k n hparse
      subst hgl
      by_cases hbw : (responseToGuess code guess k n).1 = n ∧ (responseToGuess code guess k n).2 = 0
      · have hcg := eq_of_fst_eq k n code guess hc hlen hbw.1
        rw [if_pos hbw]
        exact ⟨[], rest, by rw [hcg]; rfl, by simp⟩
      · rw [if_neg hbw] at h ⊢
        obtain ⟨pre, post, hrest, hl⟩ := ih _ h
        refine ⟨guess :: pre, post, by rw [hrest]; rfl, ?_⟩
        rw [hl, List.length_append, List.length_singleton, List.length_cons]
        omega

/-! ## The records of the game loop -/

/-- The game loop records, for every guess printed except possibly the last one, the
answer that the other party sent to it. -/
theorem playLoop_records (reply : Reply) (k n : Int) (fuel rounds : Nat)
    (history : List guess_t) (out : List (List Int)) (hlen : out.length = history.length)
    (hrec : ∀ j r, history[j]? = some r → reply (out.take (j + 1)) = some (r.2.1, r.2.2)) :
    (playLoop reply k n fuel rounds history out).emitted.length
      ≤ (playLoop reply k n fuel rounds history out).prevGuesses.length + 1 ∧
    ∀ j r, (playLoop reply k n fuel rounds history out).prevGuesses[j]? = some r →
      reply ((playLoop reply k n fuel rounds history out).emitted.take (j + 1))
        = some (r.2.1, r.2.2) := by
  have hstop : out.length ≤ history.length + 1 ∧
      ∀ j r, history[j]? = some r → reply (out.take (j + 1)) = some (r.2.1, r.2.2) :=
    ⟨by omega, hrec⟩
  induction rounds generalizing history out with
  | zero => exact hstop
  | succ rounds ih =>
    unfold playLoop
    cases hng : nextGuess history k n fuel with
    | exhausted => exact hstop
    | outOfFuel => exact hstop
    | value g =>
      have hold : ∀ j r, history[j]? = some r →
          reply ((out ++ [g]).take (j + 1)) = some (r.2.1, r.2.2) := by
        intro j r hj
        have hjlt : j < history.length := (List.getElem?_eq_some_iff.mp hj).1
        rw [List.take_append_of_le_length (by omega)]
        exact hrec j r hj
      have hend : (out ++ [g]).length ≤ history.length + 1 ∧
          ∀ j r, history[j]? = some r →
            reply ((out ++ [g]).take (j + 1)) = some (r.2.1, r.2.2) :=
        ⟨by rw [List.length_append, List.length_singleton]; omega, hold⟩
      simp only
      cases hrep : reply (out ++ [g]) with
      | none => exact hend
      | some line =>
        simp only
        cases hparse : parseLine line n with
        | none => exact hend
        | some bw =>
          obtain ⟨b, w⟩ := bw
          simp only
          by_cases hbw : b = n ∧ w = 0
          · rw [if_pos hbw]; exact hend
          · rw [if_neg hbw]
            have hline := (parseLine_some line n b w hparse).1
            have hlen' : (out ++ [g]).length = (history ++ [(g, b, w)]).length := by
              simp only [List.length_append, List.length_singleton]; omega
            have hrec' : ∀ j r, (history ++ [(g, b, w)])[j]? = some r →
                reply ((out ++ [g]).take (j + 1)) = some (r.2.1, r.2.2) := by
              intro j r hj
              rw [List.getElem?_append] at hj
              by_cases hjlt : j < history.length
              · rw [if_pos hjlt] at hj
                exact hold j r hj
              · rw [if_neg hjlt] at hj
                have hj0 : j - history.length = 0 := by
                  by_contra hne
                  rw [List.getElem?_eq_none (by simp; omega)] at hj
                  exact absurd hj (by simp)
                rw [hj0] at hj
                have hr : (g, b, w) = r := by simpa using hj
                have hjeq : j + 1 = (out ++ [g]).length := by
                  rw [List.length_append, List.length_singleton]; omega
                rw [hjeq, List.take_length, hrep, hline, ← hr]
            exact ih (history ++ [(g, b, w)]) (out ++ [g]) hlen' hrec'
              ⟨by omega, hrec'⟩

/-- From the shape of a run to its meaning: a guess printed later scores against every
guess printed earlier exactly the answer that was sent to that earlier guess. -/
theorem consistent_with_answers (reply : Reply) (k n : Int) (emitted : List (List Int))
    (prev : List guess_t) (hpre : prev.map Prod.fst <+: emitted)
    (hlen : emitted.length ≤ prev.length + 1)
    (hrec : ∀ j r, prev[j]? = some r → reply (emitted.take (j + 1)) = some (r.2.1, r.2.2))
    (hcons : ∀ i g, emitted[i]? = some g → Consistent g (prev.take i) k n)
    (i j : Nat) (g h : List Int) (hji : j < i) (hi : emitted[i]? = some g)
    (hj : emitted[j]? = some h) :
    reply (emitted.take (j + 1)) = some (responseToGuess g h k n) := by
  have hilt : i < emitted.length := (List.getElem?_eq_some_iff.mp hi).1
  have hjlt : j < prev.length := by omega
  obtain ⟨r, hr⟩ : ∃ r, prev[j]? = some r := ⟨prev[j], List.getElem?_eq_getElem hjlt⟩
  have hfst : h = r.1 := by
    obtain ⟨t, ht⟩ := hpre
    rw [← ht, List.getElem?_append_left (by simpa using hjlt), List.getElem?_map, hr] at hj
    exact (Option.some.inj hj).symm
  have hmem : r ∈ prev.take i := by
    apply List.getElem?_mem (n := j)
    rw [List.getElem?_take_of_lt hji]
    exact hr
  rw [hrec j r hr, hfst, hcons i g hi r hmem]

/-! ## The claims, continued -/

/-- C11: `contradictsPreviousAnswers` returns `false` for a candidate and a history if and
only if `responseToGuess` of the candidate and the recorded guess equals the recorded
answer for every record of the history; in particular it returns `false` for the empty
history. -/
theorem contradictsPreviousAnswers_false_iff (candidate : List Int) (history : List guess_t)
    (k n : Int) :
    (contradictsPreviousAnswers candidate history k n = false ↔
      ∀ r ∈ history, responseToGuess candidate r.1 k n = (r.2.1, r.2.2)) ∧
    contradictsPreviousAnswers candidate [] k n = false :=
  ⟨contradicts_eq_false_iff candidate history k n, rfl⟩

/-- C12: in every run of `codebreaker::play`, whatever the other party sends: the records
of `prev_Guesses` are those of the guesses printed, in order; every guess printed, except
possibly the last one, has its record; each record holds the answer that the other party
sent to its guess; the guess printed as number `i` (from `0`) passes
`contradictsPreviousAnswers` against the first `i` records, which are the history as it
stands when that guess is printed; and so a guess printed later scores against every guess
printed earlier exactly the answer received for that earlier guess. -/
theorem emitted_guess_consistent (reply : Reply) (k n : Int) (fuel rounds : Nat) :
    ((play reply k n fuel rounds).prevGuesses.map Prod.fst
      <+: (play reply k n fuel rounds).emitted) ∧
    (play reply k n fuel rounds).emitted.length
      ≤ (play reply k n fuel rounds).prevGuesses.length + 1 ∧
    (∀ j r, (play reply k n fuel rounds).prevGuesses[j]? = some r →
      reply ((play reply k n fuel rounds).emitted.take (j + 1)) = some (r.2.1, r.2.2)) ∧
    (∀ i g, (play reply k n fuel rounds).emitted[i]? = some g →
      contradictsPreviousAnswers g ((play reply k n fuel rounds).prevGuesses.take i) k n
        = false) ∧
    (∀ i j g h, j < i → (play reply k n fuel rounds).emitted[i]? = some g →
      (play reply k n fuel rounds).emitted[j]? = some h →
      reply ((play reply k n fuel rounds).emitted.take (j + 1))
        = some (responseToGuess g h k n)) := by
  by_cases hvalid : validDataSize k n = true
  · have hb := validDataSize_bounds k n hvalid
    have h := playLoop_trace reply k n (by omega) (by omega) fuel rounds [] []
      (goodHistory_nil k n) rfl (fun i x hx => by simp at hx) List.Pairwise.nil
    have hr := playLoop_records reply k n fuel rounds [] [] rfl (fun j r hj => by simp at hj)
    unfold play
    rw [if_pos hvalid]
    refine ⟨h.1, hr.1, hr.2, ?_, ?_⟩
    · intro i g hg
      rw [contradicts_eq_false_iff]
      exact h.2.2.2 i g hg
    · intro i j g x hji hi hj
      exact consistent_with_answers reply k n _ _ h.1 hr.1 hr.2 h.2.2.2 i j g x hji hi hj
  · unfold play
    rw [if_neg hvalid]
    exact ⟨List.prefix_rfl, by simp, fun j r hj => by simp at hj,
      fun i g hg => by simp at hg, fun i j g x _ hi _ => by simp at hi⟩

/-- A run with `k = 2`, `n = 2` in which `[0,0]` is answered `(1, 0)` and `[0,1]` is
answered `(0, 2)`: the third guess `[1,0]` scores `(1, 0)` against `[0,0]` and `(0, 2)`
against `[0,1]`. -/
theorem emitted_guess_consistent_witness :
    (play (linesReply [(1, 0), (0, 2)]) 2 2 4 5).emitted = [[0, 0], [0, 1], [1, 0]] ∧
    (play (linesReply [(1, 0), (0, 2)]) 2 2 4 5).prevGuesses
      = [([0, 0], 1, 0), ([0, 1], 0, 2)] ∧
    contradictsPreviousAnswers [1, 0]
      ((play (linesReply [(1, 0), (0, 2)]) 2 2 4 5).prevGuesses.take 2) 2 2 = false ∧
    linesReply [(1, 0), (0, 2)] ((play (linesReply [(1, 0), (0, 2)]) 2 2 4 5).emitted.take (1 + 1))
      = some (responseToGuess [1, 0] [0, 1] 2 2) :=
  ⟨by decide, by decide,
    (emitted_guess_consistent (linesReply [(1, 0), (0, 2)]) 2 2 4 5).2.2.2.1 2 [1, 0]
      (by decide),
    (emitted_guess_consistent (linesReply [(1, 0), (0, 2)]) 2 2 4 5).2.2.2.2 2 1 [1, 0] [0, 1]
      (by decide) (by decide) (by decide)⟩

/-- C13: in every run of `codebreaker::play`, whatever the other party sends, the guesses
printed are strictly increasing in base-`k` numeral order, and no guess is printed
twice. -/
theorem emitted_strictly_increasing (reply : Reply) (k n : Int) (fuel rounds : Nat) :
    (play reply k n fuel rounds).emitted.Pairwise (fun a b => numeral k a < numeral k b) ∧
    (play reply k n fuel rounds).emitted.Nodup := by
  have hpw : (play reply k n fuel rounds).emitted.Pairwise
      (fun a b => numeral k a < numeral k b) := by
    by_cases hvalid : validDataSize k n = true
    · have hb := validDataSize_bounds k n hvalid
      have h := playLoop_trace reply k n (by omega) (by omega) fuel rounds [] []
        (goodHistory_nil k n) rfl (fun i x hx => by simp at hx) List.Pairwise.nil
      unfold play
      rw [if_pos hvalid]
      exact h.2.1
    · unfold play
      rw [if_neg hvalid]
      exact List.Pairwise.nil
  refine ⟨hpw, ?_⟩
  unfold List.Nodup
  refine List.Pairwise.imp ?_ hpw
  intro a b hlt hab
  rw [hab] at hlt
  exact lt_irrefl _ hlt

theorem emitted_strictly_increasing_witness :
    (play (linesReply [(1, 0), (0, 2)]) 2 2 4 5).emitted = [[0, 0], [0, 1], [1, 0]] ∧
    (play (linesReply [(1, 0), (0, 2)]) 2 2 4 5).emitted.Nodup :=
  ⟨by decide, (emitted_strictly_increasing (linesReply [(1, 0), (0, 2)]) 2 2 4 5).2⟩

/-- C14: one round of the game loop of `codebreaker::play` in which `nextGuess` returned
`g` and the line read was accepted by `parseLine` as `(b, w)`: the test `b == n && w == 0`
holds exactly when `b = n`; the run ends there, finished, with `g` the last guess printed
and `prev_Guesses` unchanged, exactly when `b = n` (whatever the other party would send
afterwards and however many rounds the budget allows); otherwise the record is appended
and the loop goes on. -/
theorem done_iff_all_black (reply : Reply) (k n : Int) (fuel rounds : Nat)
    (history : List guess_t) (out : List (List Int)) (g : List Int) (line : Int × Int)
    (b w : Int) (hng : nextGuess history k n fuel = Outcome.value g)
    (hrep : reply (out ++ [g]) = some line) (hparse : parseLine line n = some (b, w)) :
    ((b = n ∧ w = 0) ↔ b = n) ∧
    (playLoop reply k n fuel (rounds + 1) history out
      = ⟨out ++ [g], history, Status.done⟩ ↔ b = n) ∧
    (b ≠ n → playLoop reply k n fuel (rounds + 1) history out
      = playLoop reply k n fuel rounds (history ++ [(g, b, w)]) (out ++ [g])) := by
  have hp := parseLine_some line n b w hparse
  have htest : (b = n ∧ w = 0) ↔ b = n := by
    constructor
    · intro h; exact h.1
    · intro h; exact ⟨h, by omega⟩
  have hstep : playLoop reply k n fuel (rounds + 1) history out
      = if b = n ∧ w = 0 then ⟨out ++ [g], history, Status.done⟩
        else playLoop reply k n fuel rounds (history ++ [(g, b, w)]) (out ++ [g]) := by
    conv_lhs => unfold playLoop
    simp only [hng, hrep, hparse]
  refine ⟨htest, ?_, ?_⟩
  · constructor
    · intro h
      by_contra hne
      rw [hstep, if_neg (fun hbw => hne hbw.1)] at h
      have hpre := playLoop_prevGuesses_prefix reply k n fuel rounds
        (history ++ [(g, b, w)]) (out ++ [g])
      rw [h] at hpre
      have := hpre.length_le
      simp at this
    · intro h
      rw [hstep, if_pos (htest.mpr h)]
  · intro hne
    rw [hstep, if_neg (fun hbw => hne hbw.1)]

/-- A finishing answer and a non-finishing one, with `k = 2`, `n = 2`. -/
theorem done_iff_all_black_witness :
    playLoop (linesReply [(2, 0), (0, 0)]) 2 2 4 3 [] [] = ⟨[[0, 0]], [], Status.done⟩ ∧
    playLoop (linesReply [(1, 0), (2, 0)]) 2 2 4 3 [] []
      = playLoop (linesReply [(1, 0), (2, 0)]) 2 2 4 2 [([0, 0], 1, 0)] [[0, 0]] :=
  ⟨(done_iff_all_black (linesReply [(2, 0), (0, 0)]) 2 2 4 2 [] [] [0, 0] (2, 0) 2 0
      (by decide) (by decide) (by decide)).2.1.mpr rfl,
   (done_iff_all_black (linesReply [(1, 0), (2, 0)]) 2 2 4 2 [] [] [0, 0] (1, 0) 1 0
      (by decide) (by decide) (by decide)).2.2 (by decide)⟩

/-- C15: one round of the game loop of `codemaker::play` for accepted arguments, a secret
and an incoming guess of length `n` over `[0, k)`: the answer printed is
`responseToGuess secret guess k n`; the run ends there, finished, if its first component
is `n`, and otherwise the loop goes on with the same secret and the lines that remain; the
test `b == n && w == 0` holds exactly when `b = n`. -/
theorem codemaker_round (k n : Int) (secret guess : List Int) (rest : List (List Int))
    (out : List (Int × Int)) (hvalid : validDataSize k n = true) (hsecret : IsSeq k n secret)
    (hguess : IsSeq k n guess) :
    codemaker.playLoop secret k n (guess :: rest) out
      = (if (responseToGuess secret guess k n).1 = n then
          (out ++ [responseToGuess secret guess k n], Status.done)
        else codemaker.playLoop secret k n rest (out ++ [responseToGuess secret guess k n])) ∧
    (((responseToGuess secret guess k n).1 = n ∧ (responseToGuess secret guess k n).2 = 0) ↔
      (responseToGuess secret guess k n).1 = n) := by
  have hb := validDataSize_bounds k n hvalid
  have hbd := responseToGuess_bounds k n secret guess hsecret hguess.1
  have htest : ((responseToGuess secret guess k n).1 = n ∧
      (responseToGuess secret guess k n).2 = 0) ↔ (responseToGuess secret guess k n).1 = n := by
    constructor
    · intro h; exact h.1
    · intro h; exact ⟨h, by omega⟩
  refine ⟨?_, htest⟩
  conv_lhs => unfold codemaker.playLoop
  rw [codemaker_parseLine_accepts guess k n (by omega) hguess]
  simp only
  by_cases h : (responseToGuess secret guess k n).1 = n
  · rw [if_pos (htest.mpr h), if_pos h]
  · rw [if_neg (fun hbw => h hbw.1), if_neg h]

theorem codemaker_round_witness :
    codemaker.playLoop [3, 1, 4, 1] 6 4 [[3, 1, 1, 1], [3, 1, 4, 1]] []
      = (if (responseToGuess [3, 1, 4, 1] [3, 1, 1, 1] 6 4).1 = 4 then
          ([] ++ [responseToGuess [3, 1, 4, 1] [3, 1, 1, 1] 6 4], Status.done)
        else codemaker.playLoop [3, 1, 4, 1] 6 4 [[3, 1, 4, 1]]
          ([] ++ [responseToGuess [3, 1, 4, 1] [3, 1, 1, 1] 6 4])) ∧
    codemaker.play 6 [3, 1, 4, 1] [[3, 1, 1, 1], [3, 1, 4, 1], [0, 0, 0, 0]]
      = ([(3, 0), (4, 0)], Status.done) :=
  ⟨(codemaker_round 6 4 [3, 1, 4, 1] [3, 1, 1, 1] [[3, 1, 4, 1]] [] (by decide) (by decide)
      (by decide)).1, by decide⟩

/-- C16: for `k ≥ 2` and a history whose guesses are sequences of length `n` over
`[0, k)`, consistent or not, `nextGuess` ends: a budget of `k ^ n` executions of the loop
body never runs out, and the number of iterations in which the increment succeeded and
the test was run, before the guess is returned or `error()` is reached, is less than
`k ^ n`. -/
theorem nextGuess_iterations (k n : Int) (history : List guess_t) (fuel : Nat) (hk : 2 ≤ k)
    (hvalid : ∀ r ∈ history, IsSeq k n r.1) (hfuel : k ^ n.toNat ≤ (fuel : Int)) :
    nextGuess history k n fuel ≠ Outcome.outOfFuel ∧
    (nextGuessCount history k n fuel).1 = nextGuess history k n fuel ∧
    ((nextGuessCount history k n fuel).2 : Int) < k ^ n.toNat :=
  ⟨nextGuess_terminates_of_valid history k n fuel hvalid hfuel,
    nextGuessCount_fst history k n fuel,
    nextGuessCount_bound history k n fuel (by omega) hvalid⟩

/-- The longest search with `k = 2`, `n = 2`: after `[0,0]` answered `(0, 1)`, which no
code can produce, three candidates are produced and tested before `error()`. -/
theorem nextGuess_iterations_witness :
    nextGuessCount [([0, 0], 0, 1)] 2 2 4 = (Outcome.exhausted, 3) ∧
    nextGuess [([0, 0], 0, 1)] 2 2 4 ≠ Outcome.outOfFuel ∧
    (nextGuessCount [([0, 0], 0, 1)] 2 2 4).1 = nextGuess [([0, 0], 0, 1)] 2 2 4 ∧
    ((nextGuessCount [([0, 0], 0, 1)] 2 2 4).2 : Int) < 2 ^ (2 : Int).toNat :=
  ⟨by decide, nextGuess_iterations 2 2 [([0, 0], 0, 1)] 4 (by decide) (by decide) (by decide)⟩

/-- C17: `nextGuess` on the empty history returns the all-zero sequence of length `n`; so
the first guess printed by a run of `codebreaker::play` (for accepted arguments and at
least one round) is the all-zero sequence, and no sequence of length `n` over `[0, k)` is
smaller in numeral order. -/
theorem first_guess_all_zero (k n : Int) (fuel : Nat) :
    nextGuess [] k n fuel = Outcome.value (List.replicate n.toNat 0) ∧
    (∀ (reply : Reply) (rounds : Nat), validDataSize k n = true →
      (play reply k n fuel (rounds + 1)).emitted.head? = some (List.replicate n.toNat 0)) ∧
    (∀ c, IsSeq k n c → numeral k (List.replicate n.toNat 0) ≤ numeral k c) := by
  refine ⟨rfl, ?_, ?_⟩
  · intro reply rounds hvalid
    unfold play
    rw [if_pos hvalid]
    have hfirst : ∀ s : Session, [List.replicate n.toNat 0] <+: s.emitted →
        s.emitted.head? = some (List.replicate n.toNat 0) := by
      intro s hs
      obtain ⟨t, ht⟩ := hs
      rw [← ht]
      rfl
    apply hfirst
    unfold playLoop
    rw [nextGuess_nil]
    simp only [List.nil_append]
    cases reply [List.replicate n.toNat 0] with
    | none => exact List.prefix_rfl
    | some line =>
      simp only
      cases parseLine line n with
      | none => exact List.prefix_rfl
      | some bw =>
        obtain ⟨b, w⟩ := bw
        simp only
        split
        · exact List.prefix_rfl
        · exact playLoop_emitted_prefix reply k n fuel rounds _ _
  · intro c hc
    rw [numeral_replicate_zero]
    exact (isSeq_numeral_bounds hc).1

theorem first_guess_all_zero_witness :
    (play (linesReply [(1, 0), (2, 0)]) 2 2 4 (2 + 1)).emitted.head?
      = some (List.replicate (2 : Int).toNat 0) ∧
    numeral 2 (List.replicate (2 : Int).toNat 0) ≤ numeral 2 [1, 0] :=
  ⟨(first_guess_all_zero 2 2 4).2.1 (linesReply [(1, 0), (2, 0)]) 2 (by decide),
   (first_guess_all_zero 2 2 4).2.2 [1, 0] (by decide)⟩

/-- C18: every guess printed by a run of `codebreaker::play` is a sequence of length `n`
over `[0, k)`; for `k ≥ 2` and `n ≥ 0`, `nextGuess` returns such a sequence for the empty
history, and `lexicographicallyIncrement` maps a sequence of length `n` over `[0, k)` to a
sequence of length `n` over `[0, k)` whenever it succeeds. -/
theorem emitted_guesses_are_sequences (k n : Int) (hk : 2 ≤ k) (hn : 0 ≤ n) :
    (∀ (reply : Reply) (fuel rounds : Nat), ∀ g ∈ (play reply k n fuel rounds).emitted,
      IsSeq k n g) ∧
    (∀ fuel : Nat, ∃ g, nextGuess [] k n fuel = Outcome.value g ∧ IsSeq k n g) ∧
    (∀ s u, IsSeq k n s → lexicographicallyIncrement s k n = some u → IsSeq k n u) := by
  refine ⟨?_, ?_, ?_⟩
  · intro reply fuel rounds
    have h := playLoop_trace reply k n (by omega) hn fuel rounds [] []
      (goodHistory_nil k n) rfl (fun i x hx => by simp at hx) List.Pairwise.nil
    unfold play
    split
    · exact h.2.2.1
    · intro g hg
      exact absurd hg (List.not_mem_nil g)
  · intro fuel
    exact ⟨_, rfl, isSeq_zeros k n (by omega) hn⟩
  · intro s u hs hu
    exact (increment_some k n s u hs hu).1

theorem emitted_guesses_are_sequences_witness :
    (∀ (reply : Reply) (fuel rounds : Nat), ∀ g ∈ (play reply 6 4 fuel rounds).emitted,
      IsSeq 6 4 g) ∧
    (∀ fuel : Nat, ∃ g, nextGuess [] 6 4 fuel = Outcome.value g ∧ IsSeq 6 4 g) ∧
    (∀ s u, IsSeq 6 4 s → lexicographicallyIncrement s 6 4 = some u → IsSeq 6 4 u) :=
  emitted_guesses_are_sequences 6 4 (by decide) (by decide)

/-- C19: `validDataSize k n` is `true` if and only if `2 ≤ k ≤ 256`, `2 ≤ n ≤ 10` and
`k ^ n ≤ 2 ^ 24`; and every value that the 64-bit variable `power` takes lies in
`(0, 2 ^ 32]`, well inside the 64-bit range. -/
theorem validDataSize_spec (k n : Int) :
    (validDataSize k n = true ↔
      2 ≤ k ∧ k ≤ 256 ∧ 2 ≤ n ∧ n ≤ 10 ∧ k ^ n.toNat ≤ 2 ^ 24) ∧
    (validDataSizeTrace k n).1 = validDataSize k n ∧
    ∀ v ∈ (validDataSizeTrace k n).2, 0 < v ∧ v ≤ 2 ^ 32 ∧ v < 2 ^ 63 := by
  refine ⟨validDataSize_iff k n, validDataSizeTrace_fst k n, ?_⟩
  intro v hv
  have := validDataSizeTrace_bound k n v hv
  refine ⟨this.1, this.2, ?_⟩
  have h32 : (2 : Int) ^ 32 < 2 ^ 63 := by decide
  omega

/-- The examples of C19. -/
theorem validDataSize_spec_witness :
    validDataSize 256 3 = true ∧ validDataSize 256 4 = false ∧ validDataSize 6 10 = false ∧
    (256 : Int) ^ (3 : Int).toNat ≤ 2 ^ 24 :=
  ⟨by decide, by decide, by decide, ((validDataSize_spec 256 3).1.mp (by decide)).2.2.2.2⟩

/-- C20: for vectors `code`, `guess` of length `n`, a score with `b = n` means that they
are equal; hence for sequences over `[0, k)` the score is `(n, 0)` if and only if the guess
is the code, and a run of the game loop of `codemaker::play` ends finished only if the
code itself is among the lines read, and then the last answer printed is the one to that
line. -/
theorem full_score_only_for_code (k n : Int) (code guess : List Int)
    (hcode : (code.length : Int) = n) (hguess : (guess.length : Int) = n) :
    ((responseToGuess code guess k n).1 = n → code = guess) ∧
    (IsSeq k n code → IsSeq k n guess →
      (responseToGuess code guess k n = (n, 0) ↔ guess = code)) ∧
    (∀ (lines : List (List Int)) (out : List (Int × Int)),
      (codemaker.playLoop code k n lines out).2 = Status.done →
      ∃ pre post, lines = pre ++ code :: post ∧
        (codemaker.playLoop code k n lines out).1.length = out.length + pre.length + 1) := by
  refine ⟨eq_of_fst_eq k n code guess hcode hguess, ?_, ?_⟩
  · intro hc hg
    constructor
    · intro h
      have : (responseToGuess code guess k n).1 = n := by rw [h]
      exact (eq_of_fst_eq k n code guess hcode hguess this).symm
    · intro h
      rw [h]
      exact responseToGuess_self k n code hc
  · intro lines out h
    exact codemaker_playLoop_done code k n hcode lines out h

theorem full_score_only_for_code_witness :
    (responseToGuess [3, 1, 4, 1] [3, 1, 1, 1] 6 4 = (4, 0) ↔
      ([3, 1, 1, 1] : List Int) = [3, 1, 4, 1]) ∧
    ∃ pre post, ([[3, 1, 1, 1], [3, 1, 4, 1], [0, 0, 0, 0]] : List (List Int))
        = pre ++ [3, 1, 4, 1] :: post ∧
      (codemaker.playLoop [3, 1, 4, 1] 6 4 [[3, 1, 1, 1], [3, 1, 4, 1], [0, 0, 0, 0]] []).1.length
        = ([] : List (Int × Int)).length + pre.length + 1 :=
  ⟨(full_score_only_for_code 6 4 [3, 1, 4, 1] [3, 1, 1, 1] (by decide) (by decide)).2.1
      (by decide) (by decide),
   (full_score_only_for_code 6 4 [3, 1, 4, 1] [3, 1, 1, 1] (by decide) (by decide)).2.2
      [[3, 1, 1, 1], [3, 1, 4, 1], [0, 0, 0, 0]] [] (by decide)⟩

end Mastermind
